import Mathlib

/-!
Verification development for `LASKO/scripts/compose_lasko_icon.py`.

The script composes an app icon: it synthesizes a sandstone-textured
background, removes border-connected near-white pixels from a glyph image
with a BFS flood fill, trims/scales/centers the glyph, and writes the
result.  This file gives a shallow embedding of the script's data model
and functions and proves the specified properties about them.

Conventions of the embedding:
* an RGBA pixel is four natural-number channels (each 0..255 in real
  images; the embedding never relies on an upper bound unless stated);
* an image is a width, a height and a total pixel function; only the
  values at coordinates `x < w`, `y < h` correspond to real pixels;
* Python float arithmetic is modelled in two ways, with `int()`
  truncation as `pyInt` (every value the script truncates is
  nonnegative): the constant tint products of
  `build_sandstone_background` are evaluated over `ℚ`, where each
  truncated constant agrees with the double computation, checked value
  by value; the padding and resize-scale computations of `compose`,
  where a product can land within an ulp of an integer so that double
  rounding changes the truncated result, are parametrized by a rounding
  function `fl` constrained only by the round-to-nearest relative error
  bound `FpRound`, of which IEEE double arithmetic is an instance, so
  theorems quantified over `fl` hold of the program;
* the nondeterministically seeded, Gaussian-blurred noise field of the
  background is modelled as an arbitrary grayscale field (a parameter).
-/

/-- An RGBA pixel: four integer channels as stored by the imaging library. -/
structure Pixel where
  r : Nat
  g : Nat
  b : Nat
  a : Nat
deriving DecidableEq

/-- An RGBA image: a size and a pixel function.  `px x y` is the pixel at
column `x`, row `y` (the script's `px[x, y]`). -/
structure Img where
  w : Nat
  h : Nat
  px : Nat → Nat → Pixel

/-- Functional update of one pixel, modelling `px[x, y] = ...`. -/
def setPx (i : Img) (x y : Nat) (p : Pixel) : Img :=
  ⟨i.w, i.h, fun x' y' => if x' = x ∧ y' = y then p else i.px x' y'⟩

/-- The white predicate of `is_white` in the script: nonzero opacity and
every color channel at least the threshold `TH = 245`. -/
def whiteP (i : Img) (x y : Nat) : Prop :=
  0 < (i.px x y).a ∧ 245 ≤ (i.px x y).r ∧ 245 ≤ (i.px x y).g ∧ 245 ≤ (i.px x y).b

instance (i : Img) (x y : Nat) : Decidable (whiteP i x y) := by
  unfold whiteP; infer_instance

/-- `is_white(x, y)` from the script, as a boolean test on the image. -/
def is_white (i : Img) (x y : Nat) : Bool :=
  decide (whiteP i x y)

/-- Functional update of the `visited` matrix. -/
def setV (v : Nat → Nat → Bool) (x y : Nat) : Nat → Nat → Bool :=
  fun x' y' => if x' = x ∧ y' = y then true else v x' y'

/-- One iteration of the first seeding loop (`for x in range(w0)`): seed
`(x, 0)` and `(x, h0-1)` when white, marking them visited. -/
def seedX (i : Img) (st : (Nat → Nat → Bool) × List (Nat × Nat)) (x : Nat) :
    (Nat → Nat → Bool) × List (Nat × Nat) :=
  let st1 := if is_white i x 0 then (setV st.1 x 0, st.2 ++ [(x, 0)]) else st
  if is_white i x (i.h - 1) then (setV st1.1 x (i.h - 1), st1.2 ++ [(x, i.h - 1)]) else st1

/-- One iteration of the second seeding loop (`for y in range(h0)`): seed
`(0, y)` and `(w0-1, y)` when white, marking them visited. -/
def seedY (i : Img) (st : (Nat → Nat → Bool) × List (Nat × Nat)) (y : Nat) :
    (Nat → Nat → Bool) × List (Nat × Nat) :=
  let st1 := if is_white i 0 y then (setV st.1 0 y, st.2 ++ [(0, y)]) else st
  if is_white i (i.w - 1) y then (setV st1.1 (i.w - 1) y, st1.2 ++ [(i.w - 1, y)]) else st1

/-- The whole seeding phase of `remove_outer_white_only`: both border
loops, starting from an all-false visited matrix and an empty queue. -/
def seedAll (i : Img) : (Nat → Nat → Bool) × List (Nat × Nat) :=
  (List.range i.h).foldl (seedY i) ((List.range i.w).foldl (seedX i) (fun _ _ => false, []))

/-- The 4-neighbour candidates `((x-1,y),(x+1,y),(x,y-1),(x,y+1))`,
over `ℤ` because the script's coordinates may step to `-1` before the
bounds check rejects them. -/
def nbrs (x y : Nat) : List (Int × Int) :=
  [((x : Int) - 1, (y : Int)), ((x : Int) + 1, (y : Int)),
   ((x : Int), (y : Int) - 1), ((x : Int), (y : Int) + 1)]

/-- The body of the neighbour loop: bounds check, visited check, white
check, then mark visited and append to the queue. -/
def pushNbr (i : Img) (st : (Nat → Nat → Bool) × List (Nat × Nat)) (c : Int × Int) :
    (Nat → Nat → Bool) × List (Nat × Nat) :=
  if 0 ≤ c.1 ∧ c.1 < (i.w : Int) ∧ 0 ≤ c.2 ∧ c.2 < (i.h : Int) ∧
      st.1 c.1.toNat c.2.toNat = false then
    if is_white i c.1.toNat c.2.toNat then
      (setV st.1 c.1.toNat c.2.toNat, st.2 ++ [(c.1.toNat, c.2.toNat)])
    else st
  else st

/-- The BFS state: current image, visited matrix, pending FIFO queue, and
the list of coordinates dequeued so far (the processing trace). -/
structure BfsState where
  img : Img
  visited : Nat → Nat → Bool
  queue : List (Nat × Nat)
  trace : List (Nat × Nat)

/-- One iteration of the `while q:` loop: pop the head, zero its alpha
(keeping the color channels), and run the neighbour loop. -/
def bfsStep (st : BfsState) : BfsState :=
  match st.queue with
  | [] => st
  | (x, y) :: rest =>
    let p := st.img.px x y
    let img' := setPx st.img x y ⟨p.r, p.g, p.b, 0⟩
    let vq := (nbrs x y).foldl (pushNbr img') (st.visited, rest)
    ⟨img', vq.1, vq.2, st.trace ++ [(x, y)]⟩

/-- Fuel-indexed iteration of `bfsStep`; the loop stops when the queue is
empty.  `remove_outer_white_only` supplies enough fuel for the queue to
drain (proved below). -/
def bfsRun : Nat → BfsState → BfsState
  | 0, st => st
  | n + 1, st =>
    match st.queue with
    | [] => st
    | _ :: _ => bfsRun n (bfsStep st)

/-- The full run of `remove_outer_white_only` on an image: seed the
borders, then drain the queue.  The fuel `|seed queue| + w*h` dominates
the BFS measure (queue length plus unvisited cells), so the run always
reaches the empty queue. -/
def removeRun (i : Img) : BfsState :=
  let s := seedAll i
  bfsRun (s.2.length + i.w * i.h) ⟨i, s.1, s.2, []⟩

/-- `remove_outer_white_only` from the script: the image after the
border-seeded BFS flood fill has zeroed the alpha of every processed
pixel. -/
def remove_outer_white_only (i : Img) : Img :=
  (removeRun i).img

/-! ### Basic facts about the BFS machinery -/

/-- Unfolding of `bfsStep` at a nonempty queue. -/
theorem bfsStep_cons (img : Img) (v : Nat → Nat → Bool) (x y : Nat)
    (rest t : List (Nat × Nat)) :
    bfsStep ⟨img, v, (x, y) :: rest, t⟩ =
      ⟨setPx img x y ⟨(img.px x y).r, (img.px x y).g, (img.px x y).b, 0⟩,
       ((nbrs x y).foldl
         (pushNbr (setPx img x y ⟨(img.px x y).r, (img.px x y).g, (img.px x y).b, 0⟩))
         (v, rest)).1,
       ((nbrs x y).foldl
         (pushNbr (setPx img x y ⟨(img.px x y).r, (img.px x y).g, (img.px x y).b, 0⟩))
         (v, rest)).2,
       t ++ [(x, y)]⟩ := rfl

/-- A run whose queue is empty is over. -/
theorem bfsRun_nil (n : Nat) (st : BfsState) (hq : st.queue = []) :
    bfsRun n st = st := by
  cases n with
  | zero => rfl
  | succ n =>
    rcases st with ⟨i, v, q, t⟩
    simp only at hq
    subst hq
    rfl

/-- Unfolding of `bfsRun` at a nonempty queue. -/
theorem bfsRun_succ_cons (n : Nat) (st : BfsState) (c : Nat × Nat)
    (rest : List (Nat × Nat)) (hq : st.queue = c :: rest) :
    bfsRun (n + 1) st = bfsRun n (bfsStep st) := by
  rcases st with ⟨i, v, q, t⟩
  simp only at hq
  subst hq
  rfl

/-- `bfsStep` preserves the image width. -/
theorem bfsStep_w (st : BfsState) : (bfsStep st).img.w = st.img.w := by
  rcases st with ⟨i, v, q, t⟩
  cases q with
  | nil => rfl
  | cons c rest => cases c; rfl

/-- `bfsStep` preserves the image height. -/
theorem bfsStep_h (st : BfsState) : (bfsStep st).img.h = st.img.h := by
  rcases st with ⟨i, v, q, t⟩
  cases q with
  | nil => rfl
  | cons c rest => cases c; rfl

/-- `bfsRun` preserves the image width. -/
theorem bfsRun_w (n : Nat) (st : BfsState) : (bfsRun n st).img.w = st.img.w := by
  induction n generalizing st with
  | zero => rfl
  | succ n ih =>
    rcases hq : st.queue with _ | ⟨c, rest⟩
    · rw [bfsRun_nil _ _ hq]
    · rw [bfsRun_succ_cons n st c rest hq, ih, bfsStep_w]

/-- `bfsRun` preserves the image height. -/
theorem bfsRun_h (n : Nat) (st : BfsState) : (bfsRun n st).img.h = st.img.h := by
  induction n generalizing st with
  | zero => rfl
  | succ n ih =>
    rcases hq : st.queue with _ | ⟨c, rest⟩
    · rw [bfsRun_nil _ _ hq]
    · rw [bfsRun_succ_cons n st c rest hq, ih, bfsStep_h]

/-- Once a pixel's alpha is zero it stays zero through a step: the step
only writes alpha `0`. -/
theorem bfsStep_alpha_zero (st : BfsState) (x y : Nat)
    (h : (st.img.px x y).a = 0) : ((bfsStep st).img.px x y).a = 0 := by
  rcases st with ⟨i, v, q, t⟩
  cases q with
  | nil => exact h
  | cons c rest =>
    rcases c with ⟨cx, cy⟩
    rw [bfsStep_cons]
    simp only [setPx]
    split
    · rfl
    · exact h

/-- Once a pixel's alpha is zero it stays zero for the rest of the run. -/
theorem bfsRun_alpha_zero (n : Nat) (st : BfsState) (x y : Nat)
    (h : (st.img.px x y).a = 0) : ((bfsRun n st).img.px x y).a = 0 := by
  induction n generalizing st with
  | zero => exact h
  | succ n ih =>
    rcases hq : st.queue with _ | ⟨c, rest⟩
    · rw [bfsRun_nil _ _ hq]; exact h
    · rw [bfsRun_succ_cons n st c rest hq]
      exact ih _ (bfsStep_alpha_zero st x y h)

/-- The head of the queue gets its alpha zeroed by the step. -/
theorem bfsStep_head_alpha (st : BfsState) (x y : Nat) (rest : List (Nat × Nat))
    (hq : st.queue = (x, y) :: rest) : ((bfsStep st).img.px x y).a = 0 := by
  rcases st with ⟨i, v, q, t⟩
  simp only at hq
  subst hq
  rw [bfsStep_cons]
  simp [setPx]

/-- `pushNbr` only appends to the queue. -/
theorem pushNbr_mem (i : Img) (st : (Nat → Nat → Bool) × List (Nat × Nat))
    (c : Int × Int) (p : Nat × Nat) (hp : p ∈ st.2) : p ∈ (pushNbr i st c).2 := by
  unfold pushNbr
  split
  · split
    · exact List.mem_append_left _ hp
    · exact hp
  · exact hp

/-- Queue membership survives the whole neighbour loop. -/
theorem foldl_pushNbr_mem (i : Img) (l : List (Int × Int))
    (st : (Nat → Nat → Bool) × List (Nat × Nat)) (p : Nat × Nat) (hp : p ∈ st.2) :
    p ∈ (l.foldl (pushNbr i) st).2 := by
  induction l generalizing st with
  | nil => exact hp
  | cons c l ih => exact ih _ (pushNbr_mem i st c p hp)

/-- Pixels waiting behind the head remain in the queue after the step. -/
theorem bfsStep_queue_mem (st : BfsState) (c : Nat × Nat) (rest : List (Nat × Nat))
    (hq : st.queue = c :: rest) (p : Nat × Nat) (hp : p ∈ rest) :
    p ∈ (bfsStep st).queue := by
  rcases st with ⟨i, v, q, t⟩
  simp only at hq
  subst hq
  rcases c with ⟨cx, cy⟩
  rw [bfsStep_cons]
  exact foldl_pushNbr_mem _ _ _ _ hp

/-- Every pixel in the queue ends with zero alpha, provided the run
drains the queue. -/
theorem bfsRun_processed (n : Nat) (st : BfsState) (p : Nat × Nat)
    (hp : p ∈ st.queue) (hdone : (bfsRun n st).queue = []) :
    (((bfsRun n st).img.px p.1 p.2).a = 0) := by
  induction n generalizing st with
  | zero =>
    simp only [bfsRun] at hdone ⊢
    rw [hdone] at hp
    exact absurd hp (List.not_mem_nil p)
  | succ n ih =>
    rcases hq : st.queue with _ | ⟨c, rest⟩
    · rw [hq] at hp; exact absurd hp (List.not_mem_nil p)
    · rw [bfsRun_succ_cons n st c rest hq] at hdone ⊢
      rw [hq] at hp
      rcases List.mem_cons.mp hp with hpc | hpr
      · subst hpc
        exact bfsRun_alpha_zero n _ p.1 p.2 (bfsStep_head_alpha st p.1 p.2 rest hq)
      · exact ih _ (bfsStep_queue_mem st c rest hq p hpr) hdone

/-! ### Termination: the supplied fuel always drains the queue -/

/-- Number of in-bounds cells not yet visited. -/
def unvisCount (w h : Nat) (v : Nat → Nat → Bool) : Nat :=
  ((Finset.range w ×ˢ Finset.range h).filter (fun c => v c.1 c.2 = false)).card

theorem unvisCount_le (w h : Nat) (v : Nat → Nat → Bool) :
    unvisCount w h v ≤ w * h := by
  calc ((Finset.range w ×ˢ Finset.range h).filter (fun c => v c.1 c.2 = false)).card
      ≤ (Finset.range w ×ˢ Finset.range h).card := Finset.card_filter_le _ _
    _ = w * h := by simp [Finset.card_product]

/-- Marking an in-bounds unvisited cell visited decrements the count. -/
theorem unvisCount_setV (w h : Nat) (v : Nat → Nat → Bool) (nx ny : Nat)
    (hx : nx < w) (hy : ny < h) (hv : v nx ny = false) :
    unvisCount w h (setV v nx ny) + 1 = unvisCount w h v := by
  have hmem : (nx, ny) ∈ (Finset.range w ×ˢ Finset.range h).filter
      (fun c => v c.1 c.2 = false) := by
    simp [Finset.mem_filter, Finset.mem_product, hx, hy, hv]
  have hset : (Finset.range w ×ˢ Finset.range h).filter
        (fun c => setV v nx ny c.1 c.2 = false) =
      ((Finset.range w ×ˢ Finset.range h).filter
        (fun c => v c.1 c.2 = false)).erase (nx, ny) := by
    ext ⟨cx, cy⟩
    simp only [Finset.mem_filter, Finset.mem_erase, Finset.mem_product,
      Finset.mem_range, setV, Prod.mk.injEq]
    by_cases hcx : cx = nx <;> by_cases hcy : cy = ny <;>
      simp [hcx, hcy, hv]
  unfold unvisCount
  rw [hset, Finset.card_erase_of_mem hmem]
  have : 0 < ((Finset.range w ×ˢ Finset.range h).filter
      (fun c => v c.1 c.2 = false)).card := Finset.card_pos.mpr ⟨_, hmem⟩
  omega

/-- One neighbour check does not increase the BFS measure. -/
theorem pushNbr_measure (i : Img) (vq : (Nat → Nat → Bool) × List (Nat × Nat))
    (c : Int × Int) :
    (pushNbr i vq c).2.length + unvisCount i.w i.h (pushNbr i vq c).1 ≤
      vq.2.length + unvisCount i.w i.h vq.1 := by
  unfold pushNbr
  split
  · rename_i hcond
    obtain ⟨h1, h2, h3, h4, h5⟩ := hcond
    split
    · have hx : c.1.toNat < i.w := by omega
      have hy : c.2.toNat < i.h := by omega
      have := unvisCount_setV i.w i.h vq.1 c.1.toNat c.2.toNat hx hy h5
      simp only [List.length_append, List.length_singleton]
      omega
    · exact le_refl _
  · exact le_refl _

/-- The whole neighbour loop does not increase the BFS measure. -/
theorem foldl_pushNbr_measure (i : Img) (l : List (Int × Int))
    (vq : (Nat → Nat → Bool) × List (Nat × Nat)) :
    ((l.foldl (pushNbr i) vq).2.length +
        unvisCount i.w i.h (l.foldl (pushNbr i) vq).1) ≤
      vq.2.length + unvisCount i.w i.h vq.1 := by
  induction l generalizing vq with
  | nil => exact le_refl _
  | cons c l ih => exact le_trans (ih _) (pushNbr_measure i vq c)

/-- A step at a nonempty queue strictly decreases the BFS measure. -/
theorem bfsStep_measure (st : BfsState) (c : Nat × Nat) (rest : List (Nat × Nat))
    (hq : st.queue = c :: rest) :
    (bfsStep st).queue.length +
        unvisCount st.img.w st.img.h (bfsStep st).visited <
      st.queue.length + unvisCount st.img.w st.img.h st.visited := by
  rcases st with ⟨i, v, q, t⟩
  simp only at hq
  subst hq
  rcases c with ⟨cx, cy⟩
  rw [bfsStep_cons]
  simp only [List.length_cons]
  have hkey := foldl_pushNbr_measure
    (setPx i cx cy ⟨(i.px cx cy).r, (i.px cx cy).g, (i.px cx cy).b, 0⟩)
    (nbrs cx cy) (v, rest)
  simp only [setPx] at hkey ⊢
  omega

/-- With fuel at least the measure, the run drains the queue. -/
theorem bfsRun_empties (n : Nat) (st : BfsState)
    (h : st.queue.length + unvisCount st.img.w st.img.h st.visited ≤ n) :
    (bfsRun n st).queue = [] := by
  induction n generalizing st with
  | zero =>
    have : st.queue.length = 0 := by omega
    simpa [bfsRun] using List.length_eq_zero.mp this
  | succ n ih =>
    rcases hq : st.queue with _ | ⟨c, rest⟩
    · rw [bfsRun_nil _ _ hq, hq]
    · rw [bfsRun_succ_cons n st c rest hq]
      apply ih
      rw [bfsStep_w, bfsStep_h]
      have := bfsStep_measure st c rest hq
      omega

/-- The run performed by `remove_outer_white_only` always drains its
queue: the fuel `|seeds| + w*h` dominates the measure. -/
theorem removeRun_empties (i : Img) : (removeRun i).queue = [] := by
  unfold removeRun
  apply bfsRun_empties
  simp only
  have := unvisCount_le i.w i.h (seedAll i).1
  omega

/-! ### Seeding: every white border pixel enters the initial queue -/

/-- Generic fold lemma: a queue-membership that each step preserves
survives the fold. -/
theorem foldl_mem_mono {β : Type}
    (f : (Nat → Nat → Bool) × List (Nat × Nat) → β → (Nat → Nat → Bool) × List (Nat × Nat))
    (p : Nat × Nat) (hmono : ∀ s b, p ∈ s.2 → p ∈ (f s b).2) :
    ∀ (l : List β) (s), p ∈ s.2 → p ∈ (l.foldl f s).2 := by
  intro l
  induction l with
  | nil => exact fun s hp => hp
  | cons b l ih => exact fun s hp => ih _ (hmono s b hp)

/-- Generic fold lemma: if some element of the list adds `p` to the queue
and every step preserves queue membership, the fold's queue contains `p`. -/
theorem foldl_mem_adds {β : Type}
    (f : (Nat → Nat → Bool) × List (Nat × Nat) → β → (Nat → Nat → Bool) × List (Nat × Nat))
    (p : Nat × Nat) (x : β) (hmono : ∀ s b, p ∈ s.2 → p ∈ (f s b).2)
    (hadds : ∀ s, p ∈ (f s x).2) :
    ∀ (l : List β) (s), x ∈ l → p ∈ (l.foldl f s).2 := by
  intro l
  induction l with
  | nil => intro s hx; exact absurd hx (List.not_mem_nil x)
  | cons b l ih =>
    intro s hx
    rcases List.mem_cons.mp hx with hxb | hxl
    · subst hxb
      exact foldl_mem_mono f p hmono l _ (hadds s)
    · exact ih _ hxl

/-- A seeding iteration of the `x` loop only appends to the queue. -/
theorem seedX_mem (i : Img) (st : (Nat → Nat → Bool) × List (Nat × Nat))
    (x : Nat) (p : Nat × Nat) (hp : p ∈ st.2) : p ∈ (seedX i st x).2 := by
  unfold seedX
  dsimp only
  split
  · apply List.mem_append_left
    split
    · exact List.mem_append_left _ hp
    · exact hp
  · split
    · exact List.mem_append_left _ hp
    · exact hp

/-- A seeding iteration of the `y` loop only appends to the queue. -/
theorem seedY_mem (i : Img) (st : (Nat → Nat → Bool) × List (Nat × Nat))
    (y : Nat) (p : Nat × Nat) (hp : p ∈ st.2) : p ∈ (seedY i st y).2 := by
  unfold seedY
  dsimp only
  split
  · apply List.mem_append_left
    split
    · exact List.mem_append_left _ hp
    · exact hp
  · split
    · exact List.mem_append_left _ hp
    · exact hp

/-- The `x` loop seeds a white pixel of the top row. -/
theorem seedX_adds_top (i : Img) (st : (Nat → Nat → Bool) × List (Nat × Nat))
    (x : Nat) (hw : is_white i x 0 = true) : (x, 0) ∈ (seedX i st x).2 := by
  unfold seedX
  simp only [hw, if_true]
  split <;> simp

/-- The `x` loop seeds a white pixel of the bottom row. -/
theorem seedX_adds_bot (i : Img) (st : (Nat → Nat → Bool) × List (Nat × Nat))
    (x : Nat) (hw : is_white i x (i.h - 1) = true) :
    (x, i.h - 1) ∈ (seedX i st x).2 := by
  unfold seedX
  dsimp only
  simp only [hw, if_true]
  simp

/-- The `y` loop seeds a white pixel of the left column. -/
theorem seedY_adds_left (i : Img) (st : (Nat → Nat → Bool) × List (Nat × Nat))
    (y : Nat) (hw : is_white i 0 y = true) : (0, y) ∈ (seedY i st y).2 := by
  unfold seedY
  simp only [hw, if_true]
  split <;> simp

/-- The `y` loop seeds a white pixel of the right column. -/
theorem seedY_adds_right (i : Img) (st : (Nat → Nat → Bool) × List (Nat × Nat))
    (y : Nat) (hw : is_white i (i.w - 1) y = true) :
    (i.w - 1, y) ∈ (seedY i st y).2 := by
  unfold seedY
  dsimp only
  simp only [hw, if_true]
  simp

theorem seed_mem_top (i : Img) (x : Nat) (hx : x < i.w) (hw : whiteP i x 0) :
    (x, 0) ∈ (seedAll i).2 := by
  unfold seedAll
  apply foldl_mem_mono (seedY i) _ (fun s b hp => seedY_mem i s b _ hp)
  apply foldl_mem_adds (seedX i) (x, 0) x (fun s b hp => seedX_mem i s b _ hp)
    (fun s => seedX_adds_top i s x (by simp [is_white, hw]))
  exact List.mem_range.mpr hx

theorem seed_mem_bot (i : Img) (x : Nat) (hx : x < i.w) (hw : whiteP i x (i.h - 1)) :
    (x, i.h - 1) ∈ (seedAll i).2 := by
  unfold seedAll
  apply foldl_mem_mono (seedY i) _ (fun s b hp => seedY_mem i s b _ hp)
  apply foldl_mem_adds (seedX i) (x, i.h - 1) x (fun s b hp => seedX_mem i s b _ hp)
    (fun s => seedX_adds_bot i s x (by simp [is_white, hw]))
  exact List.mem_range.mpr hx

theorem seed_mem_left (i : Img) (y : Nat) (hy : y < i.h) (hw : whiteP i 0 y) :
    (0, y) ∈ (seedAll i).2 := by
  unfold seedAll
  apply foldl_mem_adds (seedY i) (0, y) y (fun s b hp => seedY_mem i s b _ hp)
    (fun s => seedY_adds_left i s y (by simp [is_white, hw]))
  exact List.mem_range.mpr hy

theorem seed_mem_right (i : Img) (y : Nat) (hy : y < i.h) (hw : whiteP i (i.w - 1) y) :
    (i.w - 1, y) ∈ (seedAll i).2 := by
  unfold seedAll
  apply foldl_mem_adds (seedY i) (i.w - 1, y) y (fun s b hp => seedY_mem i s b _ hp)
    (fun s => seedY_adds_right i s y (by simp [is_white, hw]))
  exact List.mem_range.mpr hy

/-- Seeded pixels end the run with zero alpha. -/
theorem removeRun_processed (i : Img) (p : Nat × Nat) (hp : p ∈ (seedAll i).2) :
    ((removeRun i).img.px p.1 p.2).a = 0 := by
  have hdone := removeRun_empties i
  exact bfsRun_processed ((seedAll i).2.length + i.w * i.h)
    ⟨i, (seedAll i).1, (seedAll i).2, []⟩ p hp hdone

/-- C1: every border pixel of an RGBA image that satisfies the white
predicate (alpha > 0 and each color channel at least 245) has zero
opacity after `remove_outer_white_only`. -/
theorem C1_border_white_cleared (i : Img) (x y : Nat)
    (hx : x < i.w) (hy : y < i.h)
    (hb : x = 0 ∨ x = i.w - 1 ∨ y = 0 ∨ y = i.h - 1)
    (hw : whiteP i x y) :
    ((remove_outer_white_only i).px x y).a = 0 := by
  have hmem : (x, y) ∈ (seedAll i).2 := by
    rcases hb with h | h | h | h
    · subst h; exact seed_mem_left i y hy hw
    · subst h; exact seed_mem_right i y hy hw
    · subst h; exact seed_mem_top i x hx hw
    · subst h; exact seed_mem_bot i x hx hw
  exact removeRun_processed i (x, y) hmem

/-- A 2-by-2 test image: white left column, opaque black right column. -/
def wImgC1 : Img :=
  ⟨2, 2, fun x _ => if x = 0 then ⟨255, 255, 255, 255⟩ else ⟨0, 0, 0, 255⟩⟩

/-- Witness for C1 on a concrete image: the border-adjacent white pixel
`(0, 0)` ends fully transparent. -/
theorem C1_witness :
    (0 < wImgC1.w ∧ 0 < wImgC1.h ∧ whiteP wImgC1 0 0) ∧
      ((remove_outer_white_only wImgC1).px 0 0).a = 0 :=
  ⟨⟨by decide, by decide, by decide⟩,
    C1_border_white_cleared wImgC1 0 0 (by decide) (by decide) (Or.inl rfl) (by decide)⟩

/-! ### Reachability and the BFS invariant -/

/-- 4-connectivity of pixel coordinates. -/
def adj (x y x' y' : Nat) : Prop :=
  (y' = y ∧ (x' = x + 1 ∨ x = x' + 1)) ∨ (x' = x ∧ (y' = y + 1 ∨ y = y' + 1))

/-- `Reach i x y`: there is a 4-connected path of pixels satisfying the
white predicate from some border pixel of `i` to `(x, y)` (all pixels on
the path white, including the endpoints). -/
inductive Reach (i : Img) : Nat → Nat → Prop
  | border (x y : Nat) (hx : x < i.w) (hy : y < i.h)
      (hb : x = 0 ∨ x = i.w - 1 ∨ y = 0 ∨ y = i.h - 1)
      (hw : whiteP i x y) : Reach i x y
  | step (x y x' y' : Nat) (hr : Reach i x y) (ha : adj x y x' y')
      (hx : x' < i.w) (hy : y' < i.h) (hw : whiteP i x' y') : Reach i x' y'

theorem setV_true_iff (v : Nat → Nat → Bool) (nx ny a b : Nat) :
    setV v nx ny a b = true ↔ (a = nx ∧ b = ny) ∨ v a b = true := by
  unfold setV
  split <;> rename_i hc <;> simp [hc]

theorem setV_false_iff (v : Nat → Nat → Bool) (nx ny a b : Nat) :
    setV v nx ny a b = false ↔ ¬(a = nx ∧ b = ny) ∧ v a b = false := by
  unfold setV
  split <;> rename_i hc <;> simp [hc]

/-- The white predicate only looks at the pixel itself. -/
theorem whiteP_congr {i j : Img} {x y : Nat} (h : i.px x y = j.px x y) :
    whiteP i x y ↔ whiteP j x y := by
  unfold whiteP
  rw [h]

/-- An accepted neighbour candidate is adjacent to the dequeued pixel. -/
theorem nbrs_adj (x y : Nat) (c : Int × Int) (hc : c ∈ nbrs x y)
    (h1 : 0 ≤ c.1) (h2 : 0 ≤ c.2) : adj x y c.1.toNat c.2.toNat := by
  simp only [nbrs, List.mem_cons, List.mem_singleton, List.not_mem_nil, or_false] at hc
  rcases hc with rfl | rfl | rfl | rfl
  · exact Or.inl ⟨by omega, Or.inr (by omega)⟩
  · exact Or.inl ⟨by omega, Or.inl (by omega)⟩
  · exact Or.inr ⟨by omega, Or.inr (by omega)⟩
  · exact Or.inr ⟨by omega, Or.inl (by omega)⟩

/-- Invariant of the neighbour-expansion loop, relative to the original
image `orig` and the current (already dequeue-updated) image `i'`:
unvisited pixels are untouched, queued pixels are visited, and visited
pixels are white and border-reachable in the original image. -/
def InvAux (orig i' : Img) (vq : (Nat → Nat → Bool) × List (Nat × Nat)) : Prop :=
  (∀ a b, vq.1 a b = false → i'.px a b = orig.px a b) ∧
  (∀ p ∈ vq.2, vq.1 p.1 p.2 = true) ∧
  (∀ a b, vq.1 a b = true → whiteP orig a b) ∧
  (∀ a b, vq.1 a b = true → Reach orig a b)

theorem pushNbr_invAux (orig i' : Img) (x y : Nat) (hr : Reach orig x y)
    (hwd : i'.w = orig.w) (hhd : i'.h = orig.h)
    (c : Int × Int) (hc : c ∈ nbrs x y)
    (vq : (Nat → Nat → Bool) × List (Nat × Nat)) (hinv : InvAux orig i' vq) :
    InvAux orig i' (pushNbr i' vq c) := by
  obtain ⟨hunch, hqvis, hvwhite, hvreach⟩ := hinv
  unfold pushNbr
  split
  · rename_i hbnd
    obtain ⟨hb1, hb2, hb3, hb4, hb5⟩ := hbnd
    split
    · rename_i hwb
      -- the neighbour is enqueued and marked visited
      have hpx : i'.px c.1.toNat c.2.toNat = orig.px c.1.toNat c.2.toNat :=
        hunch _ _ hb5
      have hworig : whiteP orig c.1.toNat c.2.toNat :=
        (whiteP_congr hpx).mp (of_decide_eq_true hwb)
      have hxb : c.1.toNat < orig.w := by omega
      have hyb : c.2.toNat < orig.h := by omega
      have hradj : Reach orig c.1.toNat c.2.toNat :=
        Reach.step x y _ _ hr (nbrs_adj x y c hc hb1 hb3) hxb hyb hworig
      refine ⟨?_, ?_, ?_, ?_⟩
      · intro a b hab
        rw [setV_false_iff] at hab
        exact hunch a b hab.2
      · intro p hp
        rcases List.mem_append.mp hp with hpold | hpnew
        · rw [setV_true_iff]
          exact Or.inr (hqvis p hpold)
        · rw [List.mem_singleton] at hpnew
          subst hpnew
          rw [setV_true_iff]
          exact Or.inl ⟨rfl, rfl⟩
      · intro a b hab
        rcases (setV_true_iff _ _ _ _ _).mp hab with ⟨rfl, rfl⟩ | hold
        · exact hworig
        · exact hvwhite a b hold
      · intro a b hab
        rcases (setV_true_iff _ _ _ _ _).mp hab with ⟨rfl, rfl⟩ | hold
        · exact hradj
        · exact hvreach a b hold
    · exact ⟨hunch, hqvis, hvwhite, hvreach⟩
  · exact ⟨hunch, hqvis, hvwhite, hvreach⟩

theorem foldl_pushNbr_invAux (orig i' : Img) (x y : Nat) (hr : Reach orig x y)
    (hwd : i'.w = orig.w) (hhd : i'.h = orig.h) :
    ∀ (l : List (Int × Int)), (∀ c ∈ l, c ∈ nbrs x y) →
      ∀ vq, InvAux orig i' vq → InvAux orig i' (l.foldl (pushNbr i') vq) := by
  intro l
  induction l with
  | nil => exact fun _ vq h => h
  | cons c l ih =>
    intro hsub vq h
    exact ih (fun d hd => hsub d (List.mem_cons_of_mem c hd)) _
      (pushNbr_invAux orig i' x y hr hwd hhd c (hsub c (List.mem_cons_self c l)) vq h)

/-- The main BFS invariant on full states. -/
def BfsInv (orig : Img) (st : BfsState) : Prop :=
  st.img.w = orig.w ∧ st.img.h = orig.h ∧
  InvAux orig st.img (st.visited, st.queue)

theorem bfsStep_inv (orig : Img) (st : BfsState) (hinv : BfsInv orig st) :
    BfsInv orig (bfsStep st) := by
  rcases st with ⟨img, v, q, t⟩
  obtain ⟨hdw, hdh, hunch, hqvis, hvwhite, hvreach⟩ := hinv
  dsimp only at hdw hdh hunch hqvis hvwhite hvreach
  cases q with
  | nil => exact ⟨hdw, hdh, hunch, hqvis, hvwhite, hvreach⟩
  | cons c rest =>
    rcases c with ⟨x, y⟩
    rw [bfsStep_cons]
    have hvxy : v x y = true := hqvis (x, y) (List.mem_cons_self _ _)
    have hr : Reach orig x y := hvreach x y hvxy
    set img' := setPx img x y ⟨(img.px x y).r, (img.px x y).g, (img.px x y).b, 0⟩ with himg'
    have hwd' : img'.w = orig.w := hdw
    have hhd' : img'.h = orig.h := hdh
    have haux : InvAux orig img' (v, rest) := by
      refine ⟨?_, ?_, hvwhite, hvreach⟩
      · intro a b hab
        dsimp only at hab
        have hne : ¬(a = x ∧ b = y) := by
          rintro ⟨rfl, rfl⟩
          rw [hvxy] at hab
          exact Bool.true_eq_false.mp hab
        have : img'.px a b = img.px a b := by
          rw [himg']
          simp only [setPx]
          rw [if_neg hne]
        rw [this]
        exact hunch a b hab
      · exact fun p hp => hqvis p (List.mem_cons_of_mem _ hp)
    have hres := foldl_pushNbr_invAux orig img' x y hr hwd' hhd'
      (nbrs x y) (fun c hc => hc) (v, rest) haux
    exact ⟨hwd', hhd', hres⟩

theorem bfsRun_inv (orig : Img) (n : Nat) (st : BfsState) (hinv : BfsInv orig st) :
    BfsInv orig (bfsRun n st) := by
  induction n generalizing st with
  | zero => exact hinv
  | succ n ih =>
    rcases hq : st.queue with _ | ⟨c, rest⟩
    · rw [bfsRun_nil _ _ hq]; exact hinv
    · rw [bfsRun_succ_cons n st c rest hq]
      exact ih _ (bfsStep_inv orig st hinv)

/-! ### The invariant holds after seeding -/

/-- Seeding invariant: queued pixels are visited, and visited pixels are
white and border-reachable in the (still untouched) image. -/
def SeedInv (i : Img) (vq : (Nat → Nat → Bool) × List (Nat × Nat)) : Prop :=
  (∀ p ∈ vq.2, vq.1 p.1 p.2 = true) ∧
  (∀ a b, vq.1 a b = true → whiteP i a b ∧ Reach i a b)

/-- Appending one white, reachable border pixel preserves the seeding
invariant. -/
theorem SeedInv_update (i : Img) (vq : (Nat → Nat → Bool) × List (Nat × Nat))
    (nx ny : Nat) (hw : whiteP i nx ny) (hr : Reach i nx ny)
    (h : SeedInv i vq) : SeedInv i (setV vq.1 nx ny, vq.2 ++ [(nx, ny)]) := by
  obtain ⟨hqvis, hvis⟩ := h
  constructor
  · intro p hp
    rcases List.mem_append.mp hp with hpold | hpnew
    · rw [setV_true_iff]
      exact Or.inr (hqvis p hpold)
    · rw [List.mem_singleton] at hpnew
      subst hpnew
      rw [setV_true_iff]
      exact Or.inl ⟨rfl, rfl⟩
  · intro a b hab
    rcases (setV_true_iff _ _ _ _ _).mp hab with ⟨rfl, rfl⟩ | hold
    · exact ⟨hw, hr⟩
    · exact hvis a b hold

theorem seedX_SeedInv (i : Img) (x : Nat) (hx : x < i.w) (hh : 0 < i.h)
    (vq : (Nat → Nat → Bool) × List (Nat × Nat)) (h : SeedInv i vq) :
    SeedInv i (seedX i vq x) := by
  unfold seedX
  dsimp only
  have h1 : SeedInv i (if is_white i x 0 then (setV vq.1 x 0, vq.2 ++ [(x, 0)]) else vq) := by
    split
    · rename_i hw
      have hwp : whiteP i x 0 := of_decide_eq_true hw
      exact SeedInv_update i vq x 0 hwp
        (Reach.border x 0 hx hh (Or.inr (Or.inr (Or.inl rfl))) hwp) h
    · exact h
  split
  · rename_i hw
    have hwp : whiteP i x (i.h - 1) := of_decide_eq_true hw
    exact SeedInv_update i _ x (i.h - 1) hwp
      (Reach.border x (i.h - 1) hx (by omega) (Or.inr (Or.inr (Or.inr rfl))) hwp) h1
  · exact h1

theorem seedY_SeedInv (i : Img) (y : Nat) (hy : y < i.h) (hw0 : 0 < i.w)
    (vq : (Nat → Nat → Bool) × List (Nat × Nat)) (h : SeedInv i vq) :
    SeedInv i (seedY i vq y) := by
  unfold seedY
  dsimp only
  have h1 : SeedInv i (if is_white i 0 y then (setV vq.1 0 y, vq.2 ++ [(0, y)]) else vq) := by
    split
    · rename_i hw
      have hwp : whiteP i 0 y := of_decide_eq_true hw
      exact SeedInv_update i vq 0 y hwp
        (Reach.border 0 y hw0 hy (Or.inl rfl) hwp) h
    · exact h
  split
  · rename_i hw
    have hwp : whiteP i (i.w - 1) y := of_decide_eq_true hw
    exact SeedInv_update i _ (i.w - 1) y hwp
      (Reach.border (i.w - 1) y (by omega) hy (Or.inr (Or.inl rfl)) hwp) h1
  · exact h1

/-- A fold lemma in which the step may use membership in the list. -/
theorem foldl_pres_mem {α β : Type} (f : α → β → α) (P : α → Prop) :
    ∀ (l : List β), (∀ s b, b ∈ l → P s → P (f s b)) → ∀ s, P s → P (l.foldl f s) := by
  intro l
  induction l with
  | nil => exact fun _ s h => h
  | cons b l ih =>
    intro hstep s h
    exact ih (fun s' b' hb' => hstep s' b' (List.mem_cons_of_mem b hb'))
      _ (hstep s b (List.mem_cons_self b l) h)

theorem seedAll_SeedInv (i : Img) (hw0 : 0 < i.w) (hh0 : 0 < i.h) :
    SeedInv i (seedAll i) := by
  unfold seedAll
  apply foldl_pres_mem (seedY i) (SeedInv i) (List.range i.h)
    (fun s y hy h => seedY_SeedInv i y (List.mem_range.mp hy) hw0 s h)
  apply foldl_pres_mem (seedX i) (SeedInv i) (List.range i.w)
    (fun s x hx h => seedX_SeedInv i x (List.mem_range.mp hx) hh0 s h)
  exact ⟨fun p hp => absurd hp (List.not_mem_nil p), fun a b hab => by
    exact absurd hab (by simp)⟩

/-- The main invariant holds at the end of the flood-fill run. -/
theorem removeRun_BfsInv (i : Img) (hw0 : 0 < i.w) (hh0 : 0 < i.h) :
    BfsInv i (removeRun i) := by
  have hseed := seedAll_SeedInv i hw0 hh0
  apply bfsRun_inv
  exact ⟨rfl, rfl, fun a b _ => rfl, hseed.1,
    fun a b hab => (hseed.2 a b hab).1, fun a b hab => (hseed.2 a b hab).2⟩

/-- `remove_outer_white_only` preserves the image width. -/
theorem remove_w (i : Img) : (remove_outer_white_only i).w = i.w :=
  bfsRun_w ((seedAll i).2.length + i.w * i.h) ⟨i, (seedAll i).1, (seedAll i).2, []⟩

/-- `remove_outer_white_only` preserves the image height. -/
theorem remove_h (i : Img) : (remove_outer_white_only i).h = i.h :=
  bfsRun_h ((seedAll i).2.length + i.w * i.h) ⟨i, (seedAll i).1, (seedAll i).2, []⟩

/-- C2: an interior pixel satisfying the white predicate with no
4-connected path of white pixels to the border is left byte-identical by
`remove_outer_white_only`; in particular its opacity stays non-zero. -/
theorem C2_enclosed_white_kept (i : Img) (x y : Nat)
    (hx0 : 0 < x) (hx1 : x + 1 < i.w) (hy0 : 0 < y) (hy1 : y + 1 < i.h)
    (hw : whiteP i x y) (hnr : ¬ Reach i x y) :
    (remove_outer_white_only i).px x y = i.px x y ∧
      0 < ((remove_outer_white_only i).px x y).a := by
  have hinv := removeRun_BfsInv i (by omega) (by omega)
  obtain ⟨hdw, hdh, hunch, hqvis, hvwhite, hvreach⟩ := hinv
  have hv : (removeRun i).visited x y = false := by
    cases hvis : (removeRun i).visited x y with
    | false => rfl
    | true => exact absurd (hvreach x y hvis) hnr
  have hpx : (remove_outer_white_only i).px x y = i.px x y := hunch x y hv
  exact ⟨hpx, by rw [hpx]; exact hw.1⟩

/-- If no border pixel is white, nothing at all is border-reachable. -/
theorem noReach_of_no_white_border (i : Img)
    (h : ∀ x, x < i.w → ∀ y, y < i.h →
      (x = 0 ∨ x = i.w - 1 ∨ y = 0 ∨ y = i.h - 1) → ¬ whiteP i x y) :
    ∀ a b, ¬ Reach i a b := by
  intro a b hr
  induction hr with
  | border x y hx hy hb hw => exact h x hx y hy hb hw
  | step x y x' y' hr ha hx hy hw ih => exact ih

/-- A 3-by-3 test image: opaque black ring around a white center pixel. -/
def wImgC2 : Img :=
  ⟨3, 3, fun x y => if x = 1 ∧ y = 1 then ⟨255, 255, 255, 255⟩ else ⟨0, 0, 0, 255⟩⟩

/-- Witness for C2 on a concrete image: the enclosed white center of a
black ring survives the cleanup with full opacity. -/
theorem C2_witness :
    (0 < 1 ∧ 1 + 1 < wImgC2.w ∧ whiteP wImgC2 1 1) ∧
      ((remove_outer_white_only wImgC2).px 1 1 = wImgC2.px 1 1 ∧
        0 < ((remove_outer_white_only wImgC2).px 1 1).a) :=
  ⟨⟨by decide, by decide, by decide⟩,
    C2_enclosed_white_kept wImgC2 1 1 (by decide) (by decide) (by decide) (by decide)
      (by decide)
      (noReach_of_no_white_border wImgC2 (by decide) 1 1)⟩

/-! ### No-op behaviour and idempotence -/

/-- A seeding iteration at a non-white pair of row pixels does nothing. -/
theorem seedX_id (i : Img) (vq : (Nat → Nat → Bool) × List (Nat × Nat)) (x : Nat)
    (h1 : is_white i x 0 = false) (h2 : is_white i x (i.h - 1) = false) :
    seedX i vq x = vq := by
  unfold seedX
  simp [h1, h2]

/-- A seeding iteration at a non-white pair of column pixels does nothing. -/
theorem seedY_id (i : Img) (vq : (Nat → Nat → Bool) × List (Nat × Nat)) (y : Nat)
    (h1 : is_white i 0 y = false) (h2 : is_white i (i.w - 1) y = false) :
    seedY i vq y = vq := by
  unfold seedY
  simp [h1, h2]

/-- If every border read comes back non-white, the seed queue is empty. -/
theorem seedAll_nil (i : Img)
    (hx : ∀ x, x < i.w → is_white i x 0 = false ∧ is_white i x (i.h - 1) = false)
    (hy : ∀ y, y < i.h → is_white i 0 y = false ∧ is_white i (i.w - 1) y = false) :
    (seedAll i).2 = [] := by
  unfold seedAll
  apply foldl_pres_mem (seedY i) (fun vq => vq.2 = []) (List.range i.h)
    (fun s y hmem h => by
      rw [seedY_id i s y (hy y (List.mem_range.mp hmem)).1 (hy y (List.mem_range.mp hmem)).2]
      exact h)
  apply foldl_pres_mem (seedX i) (fun vq => vq.2 = []) (List.range i.w)
    (fun s x hmem h => by
      rw [seedX_id i s x (hx x (List.mem_range.mp hmem)).1 (hx x (List.mem_range.mp hmem)).2]
      exact h)
  rfl

/-- With an empty seed queue the flood fill returns the image unchanged. -/
theorem remove_of_seed_nil (i : Img) (h : (seedAll i).2 = []) :
    remove_outer_white_only i = i := by
  have hrun : removeRun i = ⟨i, (seedAll i).1, (seedAll i).2, []⟩ :=
    bfsRun_nil ((seedAll i).2.length + i.w * i.h)
      ⟨i, (seedAll i).1, (seedAll i).2, []⟩ h
  unfold remove_outer_white_only
  rw [hrun]

/-- C3: on an image with no pixel satisfying the white predicate,
`remove_outer_white_only` leaves every pixel byte-identical. -/
theorem C3_no_white_noop (i : Img)
    (hnw : ∀ x, x < i.w → ∀ y, y < i.h → ¬ whiteP i x y) (x y : Nat)
    (hx : x < i.w) (hy : y < i.h) :
    (remove_outer_white_only i).px x y = i.px x y := by
  have hw0 : 0 < i.w := by omega
  have hh0 : 0 < i.h := by omega
  have hseed : (seedAll i).2 = [] := by
    apply seedAll_nil i
    · intro a ha
      constructor
      · exact decide_eq_false (hnw a ha 0 hh0)
      · exact decide_eq_false (hnw a ha (i.h - 1) (by omega))
    · intro b hb
      constructor
      · exact decide_eq_false (hnw 0 hw0 b hb)
      · exact decide_eq_false (hnw (i.w - 1) (by omega) b hb)
  rw [remove_of_seed_nil i hseed]

/-- A 2-by-2 opaque dark-gray test image with no white pixel. -/
def wImgC3 : Img := ⟨2, 2, fun _ _ => ⟨40, 40, 40, 255⟩⟩

/-- Witness for C3 on a concrete image: cleanup leaves the fully
non-white image byte-identical at a sample pixel. -/
theorem C3_witness :
    (∀ x, x < wImgC3.w → ∀ y, y < wImgC3.h → ¬ whiteP wImgC3 x y) ∧
      (remove_outer_white_only wImgC3).px 1 1 = wImgC3.px 1 1 :=
  ⟨by decide, C3_no_white_noop wImgC3 (by decide) 1 1 (by decide) (by decide)⟩

/-- Color-preservation invariant for C4: relative to the original image,
the run never changes `r`, `g` or `b`, and only ever writes alpha `0`. -/
def RgbInv (orig : Img) (st : BfsState) : Prop :=
  ∀ x y, (st.img.px x y).r = (orig.px x y).r ∧
    (st.img.px x y).g = (orig.px x y).g ∧
    (st.img.px x y).b = (orig.px x y).b ∧
    ((st.img.px x y).a = (orig.px x y).a ∨ (st.img.px x y).a = 0)

theorem bfsStep_RgbInv (orig : Img) (st : BfsState) (h : RgbInv orig st) :
    RgbInv orig (bfsStep st) := by
  rcases st with ⟨img, v, q, t⟩
  cases q with
  | nil => exact h
  | cons c rest =>
    rcases c with ⟨cx, cy⟩
    rw [bfsStep_cons]
    intro x y
    dsimp only
    simp only [setPx]
    split
    · rename_i heq
      obtain ⟨rfl, rfl⟩ := heq
      obtain ⟨h1, h2, h3, _⟩ := h x y
      exact ⟨h1, h2, h3, Or.inr rfl⟩
    · exact h x y

theorem bfsRun_RgbInv (orig : Img) (n : Nat) (st : BfsState) (h : RgbInv orig st) :
    RgbInv orig (bfsRun n st) := by
  induction n generalizing st with
  | zero => exact h
  | succ n ih =>
    rcases hq : st.queue with _ | ⟨c, rest⟩
    · rw [bfsRun_nil _ _ hq]; exact h
    · rw [bfsRun_succ_cons n st c rest hq]
      exact ih _ (bfsStep_RgbInv orig st h)

/-- C4: `remove_outer_white_only` never changes a red, green or blue
channel; the only modification it can make to a pixel is setting its
alpha channel to zero. -/
theorem C4_frame_only_alpha (i : Img) (x y : Nat) :
    ((remove_outer_white_only i).px x y).r = (i.px x y).r ∧
    ((remove_outer_white_only i).px x y).g = (i.px x y).g ∧
    ((remove_outer_white_only i).px x y).b = (i.px x y).b ∧
    (((remove_outer_white_only i).px x y).a = (i.px x y).a ∨
      ((remove_outer_white_only i).px x y).a = 0) := by
  have h : RgbInv i (removeRun i) :=
    bfsRun_RgbInv i ((seedAll i).2.length + i.w * i.h)
      ⟨i, (seedAll i).1, (seedAll i).2, []⟩ (fun _ _ => ⟨rfl, rfl, rfl, Or.inl rfl⟩)
  exact h x y

/-- Shared core of C1 used also for idempotence: any in-bounds border
pixel that is white in the original ends with zero alpha. -/
theorem remove_border_white_alpha (i : Img) (x y : Nat)
    (hx : x < i.w) (hy : y < i.h)
    (hb : x = 0 ∨ x = i.w - 1 ∨ y = 0 ∨ y = i.h - 1)
    (hw : whiteP i x y) :
    ((remove_outer_white_only i).px x y).a = 0 := by
  have hmem : (x, y) ∈ (seedAll i).2 := by
    rcases hb with h | h | h | h
    · subst h; exact seed_mem_left i y hy hw
    · subst h; exact seed_mem_right i y hy hw
    · subst h; exact seed_mem_top i x hx hw
    · subst h; exact seed_mem_bot i x hx hw
  exact removeRun_processed i (x, y) hmem

/-- After one pass, no in-bounds border pixel is white any more: a white
one lost its opacity, a non-white one is untouched. -/
theorem border_not_white_after (i : Img) (hw0 : 0 < i.w) (hh0 : 0 < i.h)
    (x y : Nat) (hx : x < i.w) (hy : y < i.h)
    (hb : x = 0 ∨ x = i.w - 1 ∨ y = 0 ∨ y = i.h - 1) :
    ¬ whiteP (remove_outer_white_only i) x y := by
  by_cases hwo : whiteP i x y
  · intro hcontra
    have ha : 0 < ((remove_outer_white_only i).px x y).a := hcontra.1
    have hz := remove_border_white_alpha i x y hx hy hb hwo
    omega
  · obtain ⟨_, _, hunch, _, hvwhite, _⟩ := removeRun_BfsInv i hw0 hh0
    have hv : (removeRun i).visited x y = false := by
      cases hvis : (removeRun i).visited x y with
      | false => rfl
      | true => exact absurd (hvwhite x y hvis) hwo
    have hpx : (remove_outer_white_only i).px x y = i.px x y := hunch x y hv
    rw [whiteP_congr hpx]
    exact hwo

/-- C10: `remove_outer_white_only` is idempotent on (nonempty) images:
the first pass leaves no white border pixel, so the second pass seeds
nothing and returns its input unchanged. -/
theorem C10_idempotent (i : Img) (hw0 : 0 < i.w) (hh0 : 0 < i.h) :
    remove_outer_white_only (remove_outer_white_only i) = remove_outer_white_only i := by
  set i1 := remove_outer_white_only i with hi1
  have hdw : i1.w = i.w := remove_w i
  have hdh : i1.h = i.h := remove_h i
  apply remove_of_seed_nil
  apply seedAll_nil
  · intro x hx
    rw [hdw] at hx
    constructor
    · exact decide_eq_false
        (border_not_white_after i hw0 hh0 x 0 hx hh0 (Or.inr (Or.inr (Or.inl rfl))))
    · rw [hdh]
      exact decide_eq_false
        (border_not_white_after i hw0 hh0 x (i.h - 1) hx (by omega)
          (Or.inr (Or.inr (Or.inr rfl))))
  · intro y hy
    rw [hdh] at hy
    constructor
    · exact decide_eq_false
        (border_not_white_after i hw0 hh0 0 y hw0 hy (Or.inl rfl))
    · rw [hdw]
      exact decide_eq_false
        (border_not_white_after i hw0 hh0 (i.w - 1) y (by omega) hy
          (Or.inr (Or.inl rfl)))

/-- Witness for C10 on a concrete image: applying the cleanup twice to a
2-by-2 image with a white column equals applying it once. -/
theorem C10_witness :
    (0 < wImgC1.w ∧ 0 < wImgC1.h) ∧
      remove_outer_white_only (remove_outer_white_only wImgC1) =
        remove_outer_white_only wImgC1 :=
  ⟨⟨by decide, by decide⟩, C10_idempotent wImgC1 (by decide) (by decide)⟩

/-! ### Dequeue counts: the corrected visit-at-most-once property -/

/-- A pixel coordinate lies on the image border. -/
def onBorder (i : Img) (x y : Nat) : Prop :=
  x = 0 ∨ x = i.w - 1 ∨ y = 0 ∨ y = i.h - 1

instance (i : Img) (x y : Nat) : Decidable (onBorder i x y) := by
  unfold onBorder; infer_instance

theorem count_append_single (p e : Nat × Nat) (l : List (Nat × Nat)) :
    List.count p (l ++ [e]) = List.count p l + if p = e then 1 else 0 := by
  simp only [List.count_append, List.count_cons, List.count_nil, beq_iff_eq,
    Nat.zero_add]
  rcases eq_or_ne p e with rfl | hne
  · rfl
  · rw [if_neg hne.symm, if_neg hne]

/-- Counting invariant of the expansion loop relative to the seed queue
`q₀` and the trace `tr` accumulated so far: queue and trace consist of
visited pixels, and every coordinate occurs in queue and trace together
at most `max (count in q₀) 1` times. -/
def CntAux (q₀ tr : List (Nat × Nat)) (vq : (Nat → Nat → Bool) × List (Nat × Nat)) : Prop :=
  (∀ p ∈ vq.2, vq.1 p.1 p.2 = true) ∧
  (∀ p ∈ tr, vq.1 p.1 p.2 = true) ∧
  (∀ p, List.count p vq.2 + List.count p tr ≤ max (List.count p q₀) 1)

theorem pushNbr_CntAux (i : Img) (q₀ tr : List (Nat × Nat)) (c : Int × Int)
    (vq : (Nat → Nat → Bool) × List (Nat × Nat)) (h : CntAux q₀ tr vq) :
    CntAux q₀ tr (pushNbr i vq c) := by
  obtain ⟨hq, ht, hc⟩ := h
  unfold pushNbr
  split
  · rename_i hbnd
    split
    · have hvfalse : vq.1 c.1.toNat c.2.toNat = false := hbnd.2.2.2.2
      have hnotinq : (c.1.toNat, c.2.toNat) ∉ vq.2 := by
        intro hmem
        have := hq _ hmem
        rw [this] at hvfalse
        exact Bool.true_eq_false.mp hvfalse
      have hnotint : (c.1.toNat, c.2.toNat) ∉ tr := by
        intro hmem
        have := ht _ hmem
        rw [this] at hvfalse
        exact Bool.true_eq_false.mp hvfalse
      refine ⟨?_, ?_, ?_⟩
      · intro p hp
        rcases List.mem_append.mp hp with h1 | h2
        · rw [setV_true_iff]; exact Or.inr (hq p h1)
        · rw [List.mem_singleton] at h2; subst h2
          rw [setV_true_iff]; exact Or.inl ⟨rfl, rfl⟩
      · intro p hp
        rw [setV_true_iff]; exact Or.inr (ht p hp)
      · intro p
        rw [count_append_single]
        by_cases hpe : p = (c.1.toNat, c.2.toNat)
        · rw [if_pos hpe]
          have h1 : List.count p vq.2 = 0 := by
            rw [hpe]; exact List.count_eq_zero.mpr hnotinq
          have h2 : List.count p tr = 0 := by
            rw [hpe]; exact List.count_eq_zero.mpr hnotint
          have h3 := le_max_right (List.count p q₀) 1
          omega
        · rw [if_neg hpe]
          exact hc p
    · exact ⟨hq, ht, hc⟩
  · exact ⟨hq, ht, hc⟩

theorem foldl_pushNbr_CntAux (i : Img) (q₀ tr : List (Nat × Nat)) :
    ∀ (l : List (Int × Int)) (vq), CntAux q₀ tr vq →
      CntAux q₀ tr (l.foldl (pushNbr i) vq) := by
  intro l
  induction l with
  | nil => exact fun vq h => h
  | cons c l ih => exact fun vq h => ih _ (pushNbr_CntAux i q₀ tr c vq h)

/-- The counting invariant on full BFS states. -/
def CntInv (q₀ : List (Nat × Nat)) (st : BfsState) : Prop :=
  CntAux q₀ st.trace (st.visited, st.queue)

theorem bfsStep_CntInv (q₀ : List (Nat × Nat)) (st : BfsState)
    (h : CntInv q₀ st) : CntInv q₀ (bfsStep st) := by
  rcases st with ⟨img, v, q, t⟩
  obtain ⟨hq, ht, hc⟩ := h
  dsimp only at hq ht hc
  cases q with
  | nil => exact ⟨hq, ht, hc⟩
  | cons c rest =>
    rcases c with ⟨x, y⟩
    rw [bfsStep_cons]
    have hhead : v x y = true := hq (x, y) (List.mem_cons_self _ _)
    have haux : CntAux q₀ (t ++ [(x, y)]) (v, rest) := by
      refine ⟨?_, ?_, ?_⟩
      · exact fun p hp => hq p (List.mem_cons_of_mem _ hp)
      · intro p hp
        rcases List.mem_append.mp hp with h1 | h2
        · exact ht p h1
        · rw [List.mem_singleton] at h2; subst h2; exact hhead
      · intro p
        show List.count p rest + List.count p (t ++ [(x, y)]) ≤ max (List.count p q₀) 1
        rw [count_append_single]
        have hcp := hc p
        rw [List.count_cons] at hcp
        simp only [beq_iff_eq] at hcp
        by_cases hpe : (x, y) = p
        · rw [if_pos hpe] at hcp
          rw [if_pos hpe.symm]
          omega
        · rw [if_neg hpe] at hcp
          rw [if_neg (fun hh => hpe hh.symm)]
          omega
    exact foldl_pushNbr_CntAux _ q₀ (t ++ [(x, y)]) (nbrs x y) (v, rest) haux

theorem bfsRun_CntInv (q₀ : List (Nat × Nat)) (n : Nat) (st : BfsState)
    (h : CntInv q₀ st) : CntInv q₀ (bfsRun n st) := by
  induction n generalizing st with
  | zero => exact h
  | succ n ih =>
    rcases hq : st.queue with _ | ⟨c, rest⟩
    · rw [bfsRun_nil _ _ hq]; exact h
    · rw [bfsRun_succ_cons n st c rest hq]
      exact ih _ (bfsStep_CntInv q₀ st h)

theorem qvis_update (v : Nat → Nat → Bool) (q : List (Nat × Nat)) (nx ny : Nat)
    (h : ∀ p ∈ q, v p.1 p.2 = true) :
    ∀ p ∈ q ++ [(nx, ny)], setV v nx ny p.1 p.2 = true := by
  intro p hp
  rcases List.mem_append.mp hp with h1 | h2
  · rw [setV_true_iff]; exact Or.inr (h p h1)
  · rw [List.mem_singleton] at h2; subst h2
    rw [setV_true_iff]; exact Or.inl ⟨rfl, rfl⟩

theorem seedX_qvis (i : Img) (x : Nat) (vq : (Nat → Nat → Bool) × List (Nat × Nat))
    (h : ∀ p ∈ vq.2, vq.1 p.1 p.2 = true) :
    ∀ p ∈ (seedX i vq x).2, (seedX i vq x).1 p.1 p.2 = true := by
  unfold seedX
  dsimp only
  have h1 : ∀ p ∈ (if is_white i x 0 then (setV vq.1 x 0, vq.2 ++ [(x, 0)]) else vq).2,
      (if is_white i x 0 then (setV vq.1 x 0, vq.2 ++ [(x, 0)]) else vq).1 p.1 p.2 = true := by
    split
    · exact qvis_update vq.1 vq.2 x 0 h
    · exact h
  split
  · exact qvis_update _ _ x (i.h - 1) h1
  · exact h1

theorem seedY_qvis (i : Img) (y : Nat) (vq : (Nat → Nat → Bool) × List (Nat × Nat))
    (h : ∀ p ∈ vq.2, vq.1 p.1 p.2 = true) :
    ∀ p ∈ (seedY i vq y).2, (seedY i vq y).1 p.1 p.2 = true := by
  unfold seedY
  dsimp only
  have h1 : ∀ p ∈ (if is_white i 0 y then (setV vq.1 0 y, vq.2 ++ [(0, y)]) else vq).2,
      (if is_white i 0 y then (setV vq.1 0 y, vq.2 ++ [(0, y)]) else vq).1 p.1 p.2 = true := by
    split
    · exact qvis_update vq.1 vq.2 0 y h
    · exact h
  split
  · exact qvis_update _ _ (i.w - 1) y h1
  · exact h1

theorem seedAll_qvis (i : Img) :
    ∀ p ∈ (seedAll i).2, (seedAll i).1 p.1 p.2 = true := by
  unfold seedAll
  apply foldl_pres_mem (seedY i)
    (fun vq => ∀ p ∈ vq.2, vq.1 p.1 p.2 = true) (List.range i.h)
    (fun s y _ h => seedY_qvis i y s h)
  apply foldl_pres_mem (seedX i)
    (fun vq => ∀ p ∈ vq.2, vq.1 p.1 p.2 = true) (List.range i.w)
    (fun s x _ h => seedX_qvis i x s h)
  exact fun p hp => absurd hp (List.not_mem_nil p)

/-- Dequeue counts after the run are bounded by the seed multiplicity
(or one, for pixels first enqueued during expansion). -/
theorem removeRun_count (i : Img) (p : Nat × Nat) :
    List.count p (removeRun i).trace ≤ max (List.count p (seedAll i).2) 1 := by
  have hinit : CntInv (seedAll i).2 ⟨i, (seedAll i).1, (seedAll i).2, []⟩ := by
    refine ⟨seedAll_qvis i, ?_, ?_⟩
    · intro p hp
      exact absurd hp (List.not_mem_nil p)
    · intro p
      have := le_max_left (List.count p (seedAll i).2) 1
      simp only [List.count_nil]
      omega
  have hfin := bfsRun_CntInv (seedAll i).2 ((seedAll i).2.length + i.w * i.h) _ hinit
  have h3 : List.count p (removeRun i).queue + List.count p (removeRun i).trace ≤
      max (List.count p (seedAll i).2) 1 := hfin.2.2 p
  omega

/-- If no step of a fold changes a counter, the fold leaves it alone. -/
theorem foldl_count_const {α β : Type} (f : α → β → α) (C : α → Nat) :
    ∀ (l : List β) (s), (∀ s b, b ∈ l → C (f s b) = C s) → C (l.foldl f s) = C s := by
  intro l
  induction l with
  | nil => exact fun s _ => rfl
  | cons b l ih =>
    intro s hconst
    rw [List.foldl_cons,
      ih (f s b) (fun s' b' hb' => hconst s' b' (List.mem_cons_of_mem b hb'))]
    exact hconst s b (List.mem_cons_self b l)

/-- Over a duplicate-free list, only the step at `key` can raise the
counter, and it raises it by at most `k`. -/
theorem foldl_count_bound {α β : Type} [DecidableEq β] (f : α → β → α) (C : α → Nat)
    (key : β) (k : Nat) :
    ∀ (l : List β), l.Nodup → (∀ s, C (f s key) ≤ C s + k) →
      (∀ s b, b ∈ l → b ≠ key → C (f s b) = C s) →
      ∀ s, C (l.foldl f s) ≤ C s + k := by
  intro l
  induction l with
  | nil => exact fun _ _ _ s => Nat.le_add_right _ _
  | cons b l ih =>
    intro hnd hkey hother s
    obtain ⟨hbl, hndl⟩ := List.nodup_cons.mp hnd
    by_cases hb : b = key
    · subst hb
      have hconst : C (l.foldl f (f s b)) = C (f s b) := by
        apply foldl_count_const
        intro s' b' hb'
        exact hother s' b' (List.mem_cons_of_mem b hb')
          (fun hcontra => hbl (hcontra ▸ hb'))
      rw [List.foldl_cons, hconst]
      exact hkey s
    · rw [List.foldl_cons]
      calc C (l.foldl f (f s b)) ≤ C (f s b) + k :=
            ih hndl hkey (fun s' b' hb' hne =>
              hother s' b' (List.mem_cons_of_mem b hb') hne) (f s b)
        _ = C s + k := by
            rw [hother s b (List.mem_cons_self b l) hb]

theorem count_append_le (p e : Nat × Nat) (l : List (Nat × Nat)) :
    List.count p (l ++ [e]) ≤ List.count p l + 1 := by
  rw [count_append_single]
  split <;> omega

theorem count_append_ne (p e : Nat × Nat) (l : List (Nat × Nat)) (h : p ≠ e) :
    List.count p (l ++ [e]) = List.count p l := by
  rw [count_append_single, if_neg h]
  omega

/-- One `x`-loop iteration appends at most two queue entries. -/
theorem seedX_count_le (i : Img) (vq : (Nat → Nat → Bool) × List (Nat × Nat))
    (x : Nat) (p : Nat × Nat) :
    List.count p (seedX i vq x).2 ≤ List.count p vq.2 + 2 := by
  unfold seedX
  dsimp only
  split <;> split <;> (try dsimp only)
  · have a1 := count_append_le p (x, i.h - 1) (vq.2 ++ [(x, 0)])
    have a2 := count_append_le p (x, 0) vq.2
    omega
  · have a1 := count_append_le p (x, i.h - 1) vq.2
    omega
  · have a1 := count_append_le p (x, 0) vq.2
    omega
  · omega

/-- An `x`-loop iteration at a column other than `p.1` never appends `p`. -/
theorem seedX_count_ne (i : Img) (vq : (Nat → Nat → Bool) × List (Nat × Nat))
    (x : Nat) (p : Nat × Nat) (hne : x ≠ p.1) :
    List.count p (seedX i vq x).2 = List.count p vq.2 := by
  have hp0 : p ≠ (x, 0) := fun hpe => hne ((congrArg Prod.fst hpe).symm)
  have hph : p ≠ (x, i.h - 1) := fun hpe => hne ((congrArg Prod.fst hpe).symm)
  unfold seedX
  dsimp only
  split <;> split <;> (try dsimp only)
  · rw [count_append_ne p _ _ hph, count_append_ne p _ _ hp0]
  · rw [count_append_ne p _ _ hph]
  · rw [count_append_ne p _ _ hp0]

/-- A `y`-loop iteration at a row other than `p.2` never appends `p`. -/
theorem seedY_count_ne (i : Img) (vq : (Nat → Nat → Bool) × List (Nat × Nat))
    (y : Nat) (p : Nat × Nat) (hne : y ≠ p.2) :
    List.count p (seedY i vq y).2 = List.count p vq.2 := by
  have hp0 : p ≠ (0, y) := fun hpe => hne ((congrArg Prod.snd hpe).symm)
  have hph : p ≠ (i.w - 1, y) := fun hpe => hne ((congrArg Prod.snd hpe).symm)
  unfold seedY
  dsimp only
  split <;> split <;> (try dsimp only)
  · rw [count_append_ne p _ _ hph, count_append_ne p _ _ hp0]
  · rw [count_append_ne p _ _ hph]
  · rw [count_append_ne p _ _ hp0]

/-- One `y`-loop iteration appends at most two queue entries. -/
theorem seedY_count_le (i : Img) (vq : (Nat → Nat → Bool) × List (Nat × Nat))
    (y : Nat) (p : Nat × Nat) :
    List.count p (seedY i vq y).2 ≤ List.count p vq.2 + 2 := by
  unfold seedY
  dsimp only
  split <;> split <;> (try dsimp only)
  · have a1 := count_append_le p (i.w - 1, y) (vq.2 ++ [(0, y)])
    have a2 := count_append_le p (0, y) vq.2
    omega
  · have a1 := count_append_le p (i.w - 1, y) vq.2
    omega
  · have a1 := count_append_le p (0, y) vq.2
    omega
  · omega

/-- `x`-loop iterations only ever append top- or bottom-row coordinates. -/
theorem seedX_count_offrow (i : Img) (vq : (Nat → Nat → Bool) × List (Nat × Nat))
    (x : Nat) (p : Nat × Nat) (h0 : p.2 ≠ 0) (h1 : p.2 ≠ i.h - 1) :
    List.count p (seedX i vq x).2 = List.count p vq.2 := by
  have hp0 : p ≠ (x, 0) := fun hpe => h0 (congrArg Prod.snd hpe)
  have hph : p ≠ (x, i.h - 1) := fun hpe => h1 (congrArg Prod.snd hpe)
  unfold seedX
  dsimp only
  split <;> split <;> (try dsimp only)
  · rw [count_append_ne p _ _ hph, count_append_ne p _ _ hp0]
  · rw [count_append_ne p _ _ hph]
  · rw [count_append_ne p _ _ hp0]

/-- `y`-loop iterations only ever append left- or right-column coordinates. -/
theorem seedY_count_offcol (i : Img) (vq : (Nat → Nat → Bool) × List (Nat × Nat))
    (y : Nat) (p : Nat × Nat) (h0 : p.1 ≠ 0) (h1 : p.1 ≠ i.w - 1) :
    List.count p (seedY i vq y).2 = List.count p vq.2 := by
  have hp0 : p ≠ (0, y) := fun hpe => h0 (congrArg Prod.fst hpe)
  have hph : p ≠ (i.w - 1, y) := fun hpe => h1 (congrArg Prod.fst hpe)
  unfold seedY
  dsimp only
  split <;> split <;> (try dsimp only)
  · rw [count_append_ne p _ _ hph, count_append_ne p _ _ hp0]
  · rw [count_append_ne p _ _ hph]
  · rw [count_append_ne p _ _ hp0]

/-- No coordinate is seeded more than four times. -/
theorem seed_count_le_four (i : Img) (p : Nat × Nat) :
    List.count p (seedAll i).2 ≤ 4 := by
  unfold seedAll
  have hx : List.count p
      ((List.range i.w).foldl (seedX i) (fun _ _ => false, [])).2 ≤
        List.count p ([] : List (Nat × Nat)) + 2 :=
    foldl_count_bound (seedX i) (fun vq => List.count p vq.2) p.1 2
      (List.range i.w) (List.nodup_range i.w)
      (fun s => seedX_count_le i s p.1 p)
      (fun s b _ hne => seedX_count_ne i s b p hne) _
  have hy := foldl_count_bound (seedY i) (fun vq => List.count p vq.2) p.2 2
    (List.range i.h) (List.nodup_range i.h)
    (fun s => seedY_count_le i s p.2 p)
    (fun s b _ hne => seedY_count_ne i s b p hne)
    ((List.range i.w).foldl (seedX i) (fun _ _ => false, []))
  simp only [List.count_nil] at hx
  omega

/-- A coordinate strictly inside the image is never seeded. -/
theorem seed_count_nonborder (i : Img) (p : Nat × Nat)
    (h1 : p.1 ≠ 0) (h2 : p.1 ≠ i.w - 1) (h3 : p.2 ≠ 0) (h4 : p.2 ≠ i.h - 1) :
    List.count p (seedAll i).2 = 0 := by
  unfold seedAll
  rw [foldl_count_const (seedY i) (fun vq => List.count p vq.2) (List.range i.h) _
    (fun s b _ => seedY_count_offcol i s b p h1 h2)]
  rw [foldl_count_const (seedX i) (fun vq => List.count p vq.2) (List.range i.w) _
    (fun s b _ => seedX_count_offrow i s b p h3 h4)]
  rfl

/-- C5 (amended): the flood-fill traversal always terminates (the queue
drains), each pixel coordinate is dequeued at most four times, and every
coordinate not on the image border is dequeued at most once.  Duplicate
dequeues happen only through duplicate seeding of border pixels, since
the seeding loops do not consult the visited matrix. -/
theorem C5_traversal_bounds (i : Img) :
    (removeRun i).queue = [] ∧
    (∀ p : Nat × Nat, List.count p (removeRun i).trace ≤ 4) ∧
    (∀ p : Nat × Nat, ¬ onBorder i p.1 p.2 →
      List.count p (removeRun i).trace ≤ 1) := by
  refine ⟨removeRun_empties i, ?_, ?_⟩
  · intro p
    have h1 := removeRun_count i p
    have h2 := seed_count_le_four i p
    have h3 : max (List.count p (seedAll i).2) 1 ≤ 4 := max_le h2 (by omega)
    omega
  · intro p hnb
    unfold onBorder at hnb
    push_neg at hnb
    have h0 := seed_count_nonborder i p hnb.1 hnb.2.1 hnb.2.2.1 hnb.2.2.2
    have h1 := removeRun_count i p
    rw [h0] at h1
    simpa using h1

/-- A 3-by-3 all-white test image. -/
def wImgC5 : Img := ⟨3, 3, fun _ _ => ⟨255, 255, 255, 255⟩⟩

/-- Counterexample to C5 as stated: on a 3-by-3 all-white image the
corner `(0, 0)` is seeded by both border loops and is therefore dequeued
and processed twice, not at most once. -/
theorem C5_counterexample :
    List.count ((0, 0) : Nat × Nat) (removeRun wImgC5).trace = 2 := by
  decide

/-- Witness for the amended C5 on a concrete image: the interior pixel
`(1, 1)` of the 3-by-3 all-white image is dequeued at most once. -/
theorem C5_witness :
    ¬ onBorder wImgC5 1 1 ∧
      List.count ((1, 1) : Nat × Nat) (removeRun wImgC5).trace ≤ 1 :=
  ⟨by decide, (C5_traversal_bounds wImgC5).2.2 (1, 1) (by decide)⟩

/-! ### Background synthesis -/

/-- Canvas width `W = 1024` from the script. -/
def W : Nat := 1024

/-- Canvas height `H = 1024` from the script. -/
def H : Nat := 1024

/-- Python `int()` truncation on a rational.  Every value the script
truncates is nonnegative, where truncation coincides with the floor. -/
def pyInt (q : ℚ) : Int :=
  if 0 ≤ q then ⌊q⌋ else ⌈q⌉

/-- `clamp` from `build_sandstone_background`:
`max(0, min(255, int(v)))`. -/
def clamp (v : ℚ) : Int :=
  max 0 (min 255 (pyInt v))

/-- `BASE_COLOR = (239, 170, 58, 255)`. -/
def BASE_COLOR : Pixel := ⟨239, 170, 58, 255⟩

/-- The darkened tint `(clamp(239*0.85), clamp(170*0.85), clamp(58*0.85), 255)`. -/
def dark_color : Pixel :=
  ⟨(clamp (239 * (0.85 : ℚ))).toNat, (clamp (170 * (0.85 : ℚ))).toNat,
   (clamp (58 * (0.85 : ℚ))).toNat, 255⟩

/-- The lightened tint `(clamp(239*1.10), clamp(170*1.10), clamp(58*1.10), 255)`. -/
def light_color : Pixel :=
  ⟨(clamp (239 * (1.10 : ℚ))).toNat, (clamp (170 * (1.10 : ℚ))).toNat,
   (clamp (58 * (1.10 : ℚ))).toNat, 255⟩

/-- The imaging library's fixed-point approximation of `a * b / 255`
(`MULDIV255`), used by masked blending. -/
def muldiv255 (a b : Nat) : Nat :=
  (a * b + 128 + (a * b + 128) / 256) / 256

/-- One channel of the library's masked blend:
`dst` weighted by `255 - m`, `src` weighted by `m`. -/
def blend_chan (m dst src : Nat) : Nat :=
  muldiv255 dst (255 - m) + muldiv255 src m

/-- Masked blend of two pixels. -/
def blend_px (m : Nat) (dst src : Pixel) : Pixel :=
  ⟨blend_chan m dst.r src.r, blend_chan m dst.g src.g,
   blend_chan m dst.b src.b, blend_chan m dst.a src.a⟩

/-- `Image.new("RGBA", (w, h), c)`: a solid image. -/
def solid (w h : Nat) (c : Pixel) : Img := ⟨w, h, fun _ _ => c⟩

/-- `Image.composite(src, dst, mask)`: `src` where the mask is 255,
`dst` where it is 0, blended in between. -/
def composite (src dst : Img) (mask : Nat → Nat → Nat) : Img :=
  ⟨dst.w, dst.h, fun x y => blend_px (mask x y) (dst.px x y) (src.px x y)⟩

/-- `noise.point(lambda p: int(p*0.30))` applied to one mask value. -/
def point30 (p : Nat) : Nat := (pyInt ((p : ℚ) * (0.30 : ℚ))).toNat

/-- `.point(lambda p: int(p*0.15))` applied to one inverted mask value. -/
def point15 (p : Nat) : Nat := (pyInt ((p : ℚ) * (0.15 : ℚ))).toNat

/-- `build_sandstone_background` from the script.  The script draws the
noise field nondeterministically (`Image.effect_noise`, then a Gaussian
blur); the resulting grayscale field is modelled as the parameter
`noise`, whose values are 0..255 by construction (`hn` where needed).
The inversion `ImageOps.invert` is `255 - p`. -/
def build_sandstone_background (noise : Nat → Nat → Nat) : Img :=
  let bg := solid W H BASE_COLOR
  let tex := composite (solid W H dark_color) bg (fun x y => point30 (noise x y))
  composite (solid W H light_color) tex (fun x y => point15 (255 - noise x y))

/-- Evaluation rule for `pyInt` on a nonnegative rational, from floor
bracketing. -/
theorem pyInt_eq_of (q : ℚ) (z : Int) (h0 : 0 ≤ q) (h1 : (z : ℚ) ≤ q)
    (h2 : q < (z : ℚ) + 1) : pyInt q = z := by
  unfold pyInt
  rw [if_pos h0]
  apply Int.floor_eq_iff.mpr
  exact ⟨h1, h2⟩

/-- `pyInt` of a rational bounded by `n` yields at most `n`. -/
theorem pyInt_toNat_le (q : ℚ) (n : Nat) (hq : q ≤ (n : ℚ)) :
    (pyInt q).toNat ≤ n := by
  unfold pyInt
  split
  · have h1 : ⌊q⌋ ≤ ⌊((n : ℚ))⌋ := Int.floor_le_floor hq
    rw [Int.floor_natCast] at h1
    omega
  · rename_i hneg
    have h2 : ⌈q⌉ ≤ (0 : Int) :=
      Int.ceil_le.mpr (by push_cast; exact le_of_lt (lt_of_not_ge hneg))
    omega

theorem point30_le (p : Nat) (hp : p ≤ 255) : point30 p ≤ 255 := by
  unfold point30
  apply pyInt_toNat_le
  have hp' : (p : ℚ) ≤ 255 := by exact_mod_cast hp
  calc (p : ℚ) * (0.30 : ℚ) ≤ 255 * (0.30 : ℚ) :=
        mul_le_mul_of_nonneg_right hp' (by norm_num)
    _ ≤ ((255 : Nat) : ℚ) := by norm_num

theorem point15_le (p : Nat) (hp : p ≤ 255) : point15 p ≤ 255 := by
  unfold point15
  apply pyInt_toNat_le
  have hp' : (p : ℚ) ≤ 255 := by exact_mod_cast hp
  calc (p : ℚ) * (0.15 : ℚ) ≤ 255 * (0.15 : ℚ) :=
        mul_le_mul_of_nonneg_right hp' (by norm_num)
    _ ≤ ((255 : Nat) : ℚ) := by norm_num

set_option maxRecDepth 10000 in
/-- The masked blend of two fully opaque channels is fully opaque, for
any mask value in range. -/
theorem blend_chan_full (m : Nat) (hm : m ≤ 255) : blend_chan m 255 255 = 255 := by
  revert m hm
  decide

/-- C9: whatever grayscale noise field the library produces, the
background is exactly 1024 by 1024 and every pixel is fully opaque. -/
theorem C9_background_alpha_full (noise : Nat → Nat → Nat)
    (hn : ∀ x y, noise x y ≤ 255) :
    (build_sandstone_background noise).w = 1024 ∧
    (build_sandstone_background noise).h = 1024 ∧
    ∀ x y, ((build_sandstone_background noise).px x y).a = 255 := by
  refine ⟨rfl, rfl, ?_⟩
  intro x y
  show blend_chan (point15 (255 - noise x y))
    (blend_chan (point30 (noise x y)) 255 255) 255 = 255
  rw [blend_chan_full _ (point30_le _ (hn x y))]
  exact blend_chan_full _ (point15_le _ (by omega))

/-- Witness for C9: with the all-zero noise field, the pixel `(0, 0)` of
the synthesized background is fully opaque. -/
theorem C9_witness :
    (∀ x y, (fun _ _ => 0 : Nat → Nat → Nat) x y ≤ 255) ∧
      ((build_sandstone_background (fun _ _ => 0)).px 0 0).a = 255 :=
  ⟨fun _ _ => Nat.zero_le 255,
    (C9_background_alpha_full (fun _ _ => 0) (fun _ _ => Nat.zero_le 255)).2.2 0 0⟩

theorem pyInt_239_110 : pyInt (239 * (1.10 : ℚ)) = 262 :=
  pyInt_eq_of _ 262 (by norm_num) (by norm_num) (by norm_num)

theorem pyInt_170_110 : pyInt (170 * (1.10 : ℚ)) = 187 :=
  pyInt_eq_of _ 187 (by norm_num) (by norm_num) (by norm_num)

theorem pyInt_58_110 : pyInt (58 * (1.10 : ℚ)) = 63 :=
  pyInt_eq_of _ 63 (by norm_num) (by norm_num) (by norm_num)

/-- Counterexample to C8 as stated: the red channel of the light tint is
255, while 239 multiplied by 1.10 is 262.9 (262 after truncation); the
stored channel is the clamp of that product, not the product itself. -/
theorem C8_counterexample :
    light_color.r = 255 ∧ pyInt (239 * (1.10 : ℚ)) = 262 ∧
      (239 * (1.10 : ℚ) ≠ 255) := by
  refine ⟨?_, pyInt_239_110, by norm_num⟩
  show (clamp (239 * (1.10 : ℚ))).toNat = 255
  unfold clamp
  rw [pyInt_239_110]
  decide

/-- C8 (amended): the light tint is each channel of the base color
multiplied by 1.10, truncated to an integer and clamped to the byte
range 0..255.  Green and blue equal the truncated products, but the red
product 262.9 is clamped from 262 down to 255, so the stored tint is
`(255, 187, 63, 255)`. -/
theorem C8_light_tint_clamped :
    light_color = ⟨255, 187, 63, 255⟩ ∧
    (light_color.g : Int) = pyInt (170 * (1.10 : ℚ)) ∧
    (light_color.b : Int) = pyInt (58 * (1.10 : ℚ)) ∧
    (light_color.r : Int) < pyInt (239 * (1.10 : ℚ)) := by
  refine ⟨?_, ?_, ?_, ?_⟩
  · unfold light_color clamp
    rw [pyInt_239_110, pyInt_170_110, pyInt_58_110]
    decide
  · show ((clamp (170 * (1.10 : ℚ))).toNat : Int) = pyInt (170 * (1.10 : ℚ))
    unfold clamp
    rw [pyInt_170_110]
    decide
  · show ((clamp (58 * (1.10 : ℚ))).toNat : Int) = pyInt (58 * (1.10 : ℚ))
    unfold clamp
    rw [pyInt_58_110]
    decide
  · show ((clamp (239 * (1.10 : ℚ))).toNat : Int) < pyInt (239 * (1.10 : ℚ))
    unfold clamp
    rw [pyInt_239_110]
    decide

/-! ### Trim-and-scale geometry -/

/-- The unit roundoff of IEEE double round-to-nearest: `2^-53`. -/
def ulp : ℚ := 1 / 2 ^ 53

/-- The contract of one correctly rounded floating-point operation on a
nonnegative in-range value: the result is within relative error `ulp`.
`compose` computes its padding and scale factor in Python doubles; every
such computation satisfies this bound, so theorems quantified over an
arbitrary `fl` with `FpRound fl` hold of the program.  (The products can
land within an ulp of an integer — e.g. `21*(902/21)` evaluates to
`901.9999999999999` in doubles — so no exact rational model is
faithful here.) -/
def FpRound (fl : ℚ → ℚ) : Prop :=
  ∀ q : ℚ, 0 ≤ q → |fl q - q| ≤ ulp * q

/-- The exact (error-free) rounding satisfies the contract. -/
theorem FpRound_id : FpRound id := by
  intro q hq
  simp only [id_eq, sub_self, abs_zero]
  have hu : (0 : ℚ) ≤ ulp := by norm_num [ulp]
  exact mul_nonneg hu hq

/-- Two-sided version of the rounding contract. -/
theorem fp_bounds (fl : ℚ → ℚ) (hfl : FpRound fl) (q : ℚ) (hq : 0 ≤ q) :
    (1 - ulp) * q ≤ fl q ∧ fl q ≤ (1 + ulp) * q := by
  have h := abs_le.mp (hfl q hq)
  constructor
  · nlinarith [h.1]
  · nlinarith [h.2]

/-- The lower rounding envelope of a nonnegative value is nonnegative. -/
theorem ulp_lower_nonneg (q : ℚ) (hq : 0 ≤ q) : 0 ≤ (1 - ulp) * q :=
  mul_nonneg (by norm_num [ulp]) hq

/-- `pad = int(W*0.06)` with both float operations (the literal `0.06`
and the product) rounded by `fl`. -/
def pad_fl (fl : ℚ → ℚ) : Nat :=
  (pyInt (fl ((W : ℚ) * fl (0.06 : ℚ)))).toNat

/-- The size the script passes to `resize`: with
`s = min(max_w/gw, max_h/gh)` in floats, the pair
`(max(1, int(gw*s)), max(1, int(gh*s)))`, where `max_w = W - 2*pad` and
`max_h = H - 2*pad` are exact integers; each float division and
multiplication is rounded by `fl`. -/
def resize_dims (fl : ℚ → ℚ) (gw gh : Nat) : Nat × Nat :=
  let maxw : Nat := W - 2 * pad_fl fl
  let maxh : Nat := H - 2 * pad_fl fl
  let s : ℚ := min (fl ((maxw : ℚ) / (gw : ℚ))) (fl ((maxh : ℚ) / (gh : ℚ)))
  (max 1 (pyInt (fl ((gw : ℚ) * s))).toNat, max 1 (pyInt (fl ((gh : ℚ) * s))).toNat)

/-- Under any correct rounding, `pad` is still 61: the product lies in
`(61, 62)` even after two roundings. -/
theorem pad_fl_eq (fl : ℚ → ℚ) (hfl : FpRound fl) : pad_fl fl = 61 := by
  have ha := fp_bounds fl hfl (0.06 : ℚ) (by norm_num)
  have ha0 : (0 : ℚ) ≤ fl (0.06 : ℚ) := le_trans (by norm_num [ulp]) ha.1
  have hW : ((W : ℕ) : ℚ) = 1024 := by norm_num [W]
  have hb0 : (0 : ℚ) ≤ (W : ℚ) * fl (0.06 : ℚ) := by positivity
  have hb := fp_bounds fl hfl ((W : ℚ) * fl (0.06 : ℚ)) hb0
  have hup : fl ((W : ℚ) * fl (0.06 : ℚ)) ≤ (1 + ulp) * (1024 * ((1 + ulp) * (0.06 : ℚ))) := by
    refine le_trans hb.2 ?_
    apply mul_le_mul_of_nonneg_left _ (by norm_num [ulp])
    rw [hW]
    exact mul_le_mul_of_nonneg_left ha.2 (by norm_num)
  have hlo : (1 - ulp) * (1024 * ((1 - ulp) * (0.06 : ℚ))) ≤ fl ((W : ℚ) * fl (0.06 : ℚ)) := by
    refine le_trans ?_ hb.1
    apply mul_le_mul_of_nonneg_left _ (by norm_num [ulp])
    rw [hW]
    exact mul_le_mul_of_nonneg_left ha.1 (by norm_num)
  have hpy : pyInt (fl ((W : ℚ) * fl (0.06 : ℚ))) = 61 := by
    apply pyInt_eq_of
    · exact le_trans (by norm_num [ulp]) hlo
    · exact le_trans (by push_cast; norm_num [ulp]) hlo
    · exact lt_of_le_of_lt hup (by push_cast; norm_num [ulp])
  unfold pad_fl
  rw [hpy]
  rfl

/-- `pyInt` upper bound on nonnegative rationals. -/
theorem pyInt_le (q : ℚ) (z : Int) (h0 : 0 ≤ q) (hlt : q < (z : ℚ) + 1) :
    pyInt q ≤ z := by
  unfold pyInt
  rw [if_pos h0]
  have : ⌊q⌋ < z + 1 := Int.floor_lt.mpr (by push_cast; exact hlt)
  omega

/-- `pyInt` lower bound on nonnegative rationals. -/
theorem pyInt_ge (q : ℚ) (z : Int) (h0 : 0 ≤ q) (hge : (z : ℚ) ≤ q) :
    z ≤ pyInt q := by
  unfold pyInt
  rw [if_pos h0]
  exact Int.le_floor.mpr hge

/-- `g * (m / g) = m` in exact arithmetic. -/
theorem mul_div_self_q (g m : ℚ) (hg : g ≠ 0) : g * (m / g) = m := by
  rw [mul_comm, div_mul_cancel₀ _ hg]

/-- Either resize component is at most 902 whenever the scale is at most
its own rounded division (which `min` guarantees). -/
theorem resize_component_le (fl : ℚ → ℚ) (hfl : FpRound fl) (g s : ℚ)
    (hg : 0 < g) (hs0 : 0 ≤ s) (hs : s ≤ (1 + ulp) * (902 / g)) :
    (pyInt (fl (g * s))).toNat ≤ 902 := by
  have hq0 : (0 : ℚ) ≤ g * s := by positivity
  have hb := fp_bounds fl hfl (g * s) hq0
  have h1 : g * s ≤ (1 + ulp) * 902 := by
    calc g * s ≤ g * ((1 + ulp) * (902 / g)) :=
          mul_le_mul_of_nonneg_left hs (le_of_lt hg)
      _ = (1 + ulp) * (g * (902 / g)) := by ring
      _ = (1 + ulp) * 902 := by rw [mul_div_self_q g 902 (ne_of_gt hg)]
  have h2 : fl (g * s) ≤ (1 + ulp) * ((1 + ulp) * 902) :=
    le_trans hb.2 (mul_le_mul_of_nonneg_left h1 (by norm_num [ulp]))
  have h0fl : (0 : ℚ) ≤ fl (g * s) :=
    le_trans (ulp_lower_nonneg _ hq0) hb.1
  have h3 : pyInt (fl (g * s)) ≤ 902 := by
    apply pyInt_le _ _ h0fl
    exact lt_of_le_of_lt h2 (by push_cast; norm_num [ulp])
  omega

/-- The binding-axis resize component is at least 901: even after three
roundings the product stays above 901. -/
theorem resize_component_ge (fl : ℚ → ℚ) (hfl : FpRound fl) (g s : ℚ)
    (hg : 0 < g) (hs : (1 - ulp) * (902 / g) ≤ s) :
    901 ≤ (pyInt (fl (g * s))).toNat := by
  have hs0 : (0 : ℚ) ≤ s :=
    le_trans (ulp_lower_nonneg _ (by positivity)) hs
  have hq0 : (0 : ℚ) ≤ g * s := by positivity
  have hb := fp_bounds fl hfl (g * s) hq0
  have h1 : (1 - ulp) * 902 ≤ g * s := by
    calc (1 - ulp) * 902 = (1 - ulp) * (g * (902 / g)) := by
          rw [mul_div_self_q g 902 (ne_of_gt hg)]
      _ = g * ((1 - ulp) * (902 / g)) := by ring
      _ ≤ g * s := mul_le_mul_of_nonneg_left hs (le_of_lt hg)
  have h2 : (1 - ulp) * ((1 - ulp) * 902) ≤ fl (g * s) :=
    le_trans (mul_le_mul_of_nonneg_left h1 (by norm_num [ulp])) hb.1
  have h3 : (901 : Int) ≤ pyInt (fl (g * s)) := by
    apply pyInt_ge _ _ (le_trans (ulp_lower_nonneg _ hq0) hb.1)
    exact le_trans (by push_cast; norm_num [ulp]) h2
  omega

/-- `resize_dims` with the pad evaluated and the target size reduced to
the literal 902. -/
theorem resize_dims_reduced (fl : ℚ → ℚ) (hfl : FpRound fl) (gw gh : Nat) :
    resize_dims fl gw gh =
      (max 1 (pyInt (fl ((gw : ℚ) *
          min (fl ((902 : ℚ) / (gw : ℚ))) (fl ((902 : ℚ) / (gh : ℚ)))))).toNat,
       max 1 (pyInt (fl ((gh : ℚ) *
          min (fl ((902 : ℚ) / (gw : ℚ))) (fl ((902 : ℚ) / (gh : ℚ)))))).toNat) := by
  unfold resize_dims
  dsimp only
  rw [pad_fl_eq fl hfl]
  norm_num [W, H]

/-- C7: for every rounding satisfying the floating-point contract (the
program's double arithmetic is one) and every glyph whose opaque
bounding box is smaller than the padded target region, the padded
target dimension is `1024 - 2*int(1024*0.06) = 902` and the larger
dimension handed to `resize` equals 902 within one pixel: double
rounding can (and for some sizes does) turn `gw*(902/gw)` into
`901.99...`, so the result is 901 or 902, never anything else. -/
theorem C7_resize_longer_side (fl : ℚ → ℚ) (hfl : FpRound fl) (gw gh : Nat)
    (hgw : 0 < gw) (hgh : 0 < gh) (_hbw : gw < 902) (_hbh : gh < 902) :
    W - 2 * pad_fl fl = 902 ∧
    901 ≤ max (resize_dims fl gw gh).1 (resize_dims fl gw gh).2 ∧
    max (resize_dims fl gw gh).1 (resize_dims fl gw gh).2 ≤ 902 := by
  have hgw' : (0 : ℚ) < (gw : ℚ) := by exact_mod_cast hgw
  have hgh' : (0 : ℚ) < (gh : ℚ) := by exact_mod_cast hgh
  have hu0 : (0 : ℚ) ≤ 1 - ulp := by norm_num [ulp]
  rw [resize_dims_reduced fl hfl]
  dsimp only
  set s : ℚ := min (fl ((902 : ℚ) / (gw : ℚ))) (fl ((902 : ℚ) / (gh : ℚ))) with hsdef
  have hd1 := fp_bounds fl hfl ((902 : ℚ) / (gw : ℚ)) (by positivity)
  have hd2 := fp_bounds fl hfl ((902 : ℚ) / (gh : ℚ)) (by positivity)
  have hs0 : (0 : ℚ) ≤ s :=
    le_min (le_trans (ulp_lower_nonneg _ (by positivity)) hd1.1)
      (le_trans (ulp_lower_nonneg _ (by positivity)) hd2.1)
  have hle1 : s ≤ (1 + ulp) * (902 / (gw : ℚ)) := le_trans (min_le_left _ _) hd1.2
  have hle2 : s ≤ (1 + ulp) * (902 / (gh : ℚ)) := le_trans (min_le_right _ _) hd2.2
  have hub1 := resize_component_le fl hfl (gw : ℚ) s hgw' hs0 hle1
  have hub2 := resize_component_le fl hfl (gh : ℚ) s hgh' hs0 hle2
  refine ⟨by rw [pad_fl_eq fl hfl]; rfl, ?_, ?_⟩
  · rcases le_total gh gw with hle | hle
    · have hdiv : (902 : ℚ) / (gw : ℚ) ≤ (902 : ℚ) / (gh : ℚ) :=
        div_le_div_of_nonneg_left (by norm_num) hgh' (by exact_mod_cast hle)
      have hsge : (1 - ulp) * (902 / (gw : ℚ)) ≤ s := by
        refine le_min (hd1.1) (le_trans ?_ hd2.1)
        exact mul_le_mul_of_nonneg_left hdiv hu0
      have hlb := resize_component_ge fl hfl (gw : ℚ) s hgw' hsge
      calc (901 : Nat) ≤ max 1 (pyInt (fl ((gw : ℚ) * s))).toNat := by omega
        _ ≤ _ := le_max_left _ _
    · have hdiv : (902 : ℚ) / (gh : ℚ) ≤ (902 : ℚ) / (gw : ℚ) :=
        div_le_div_of_nonneg_left (by norm_num) hgw' (by exact_mod_cast hle)
      have hsge : (1 - ulp) * (902 / (gh : ℚ)) ≤ s := by
        refine le_min (le_trans ?_ hd1.1) (hd2.1)
        exact mul_le_mul_of_nonneg_left hdiv hu0
      have hlb := resize_component_ge fl hfl (gh : ℚ) s hgh' hsge
      calc (901 : Nat) ≤ max 1 (pyInt (fl ((gh : ℚ) * s))).toNat := by omega
        _ ≤ _ := le_max_right _ _
  · exact max_le (by omega) (by omega)

/-- Witness for C7: with the error-free rounding and a 100 by 50 glyph,
the longer resize side is within one pixel of 902. -/
theorem C7_witness :
    (FpRound id ∧ 0 < 100 ∧ 0 < 50 ∧ 100 < 902 ∧ 50 < 902) ∧
      (W - 2 * pad_fl id = 902 ∧
       901 ≤ max (resize_dims id 100 50).1 (resize_dims id 100 50).2 ∧
       max (resize_dims id 100 50).1 (resize_dims id 100 50).2 ≤ 902) :=
  ⟨⟨FpRound_id, by decide, by decide, by decide, by decide⟩,
    C7_resize_longer_side id FpRound_id 100 50 (by decide) (by decide)
      (by decide) (by decide)⟩

/-! ### Orchestration (`compose`) -/

/-- `ICON_DIR` from the script. -/
def ICON_DIR : String :=
  "/Users/starkers/Projects/Zeroa/LASKO/LASKO/Assets.xcassets/AppIcon.appiconset"

/-- `GLYPH_PATH = os.path.join(ICON_DIR, "Lasko-Icon-FULL.svg.png")`. -/
def GLYPH_PATH : String := ICON_DIR ++ "/Lasko-Icon-FULL.svg.png"

/-- `BASE_OUT = os.path.join(ICON_DIR, "ios-marketing-1024.png")`. -/
def BASE_OUT : String := ICON_DIR ++ "/ios-marketing-1024.png"

/-- The coordinates of pixels with nonzero alpha, row by row (used by
`glyph.split()[-1].getbbox()`). -/
def alpha_pts (i : Img) : List (Nat × Nat) :=
  ((List.range i.h).map (fun y =>
    (List.range i.w).filterMap (fun x =>
      if 0 < (i.px x y).a then some (x, y) else none))).flatten

/-- `getbbox` on the alpha band: `(left, upper, right, lower)` with
exclusive right/lower, `none` when the image is fully transparent. -/
def alpha_bbox (i : Img) : Option (Nat × Nat × Nat × Nat) :=
  match alpha_pts i with
  | [] => none
  | p :: ps =>
    let xs := (p :: ps).map Prod.fst
    let ys := (p :: ps).map Prod.snd
    some (xs.foldl min p.1, ys.foldl min p.2,
      xs.foldl max p.1 + 1, ys.foldl max p.2 + 1)

/-- `Image.crop((l, u, r, d))`. -/
def crop (i : Img) (l u r d : Nat) : Img :=
  ⟨r - l, d - u, fun x y => i.px (x + l) (y + u)⟩

/-- `dst.paste(src, (ox, oy), src)`: masked paste using the source's own
alpha band, with the library's blend on every channel. -/
def paste (dst src : Img) (ox oy : Nat) : Img :=
  ⟨dst.w, dst.h, fun x y =>
    if ox ≤ x ∧ x < ox + src.w ∧ oy ≤ y ∧ y < oy + src.h then
      blend_px ((src.px (x - ox) (y - oy)).a) (dst.px x y) (src.px (x - ox) (y - oy))
    else dst.px x y⟩

/-- What a successful run of `compose` produces: the path written, the
image written there, and the line printed to standard output. -/
structure ComposeOut where
  path : String
  image : Img
  stdout : List String

/-- `compose` from the script over an abstract environment: `glyph_file`
is the content of `GLYPH_PATH` (`none` when `os.path.isfile` fails, in
which case a `FileNotFoundError` is raised before any image processing
and nothing is written), `noise` is the background's random field, `fl`
is the floating-point rounding used for the padding and scale
computations, and `resample` abstracts `Image.resize(..., Image.LANCZOS)`,
whose floating-point kernel is outside this embedding; the resized image
has exactly the requested dimensions, as the library guarantees. -/
def compose (glyph_file : Option Img) (noise : Nat → Nat → Nat)
    (fl : ℚ → ℚ) (resample : Img → Nat → Nat → Nat → Nat → Pixel) :
    Except String ComposeOut :=
  match glyph_file with
  | none => Except.error ("Glyph not found: " ++ GLYPH_PATH)
  | some g0 =>
    let canvas := build_sandstone_background noise
    let g1 := remove_outer_white_only g0
    let g2 := match alpha_bbox g1 with
      | some (l, u, r, d) => crop g1 l u r d
      | none => g1
    let dims := resize_dims fl g2.w g2.h
    let g3 : Img := ⟨dims.1, dims.2, resample g2 dims.1 dims.2⟩
    let x := (W - g3.w) / 2
    let y := (H - g3.h) / 2
    let out := paste canvas g3 x y
    Except.ok ⟨BASE_OUT, out, ["WROTE_BASE " ++ BASE_OUT]⟩

/-- C6: with the glyph file absent, `compose` fails with the
file-not-found error before any processing and writes nothing; with the
file present it never raises that error, writes the output path and
reports it on standard output. -/
theorem C6_file_check (noise : Nat → Nat → Nat) (fl : ℚ → ℚ)
    (resample : Img → Nat → Nat → Nat → Nat → Pixel) :
    compose none noise fl resample =
        Except.error ("Glyph not found: " ++ GLYPH_PATH) ∧
      ∀ g : Img, ∃ o : ComposeOut,
        compose (some g) noise fl resample = Except.ok o ∧
          o.path = BASE_OUT ∧ o.stdout = ["WROTE_BASE " ++ BASE_OUT] := by
  constructor
  · rfl
  · intro g
    exact ⟨_, rfl, rfl, rfl⟩
